import Mathlib

/-!
Verification of the bee-bestie lexicon/word-generation core.

Shallow embedding of:
* the lexicon trie (`WordFreqTrie.solve` / `find` / `getRoot`),
* the commonality statistic (`computeCommonality`, `logit`, `clamp`),
* the phonotactic model (`train`, `countsToLogProbs`, `generateViableWords`,
  `countViableWords`, `getRandomViableWord`, `filterModel`, `scoreSyllable`,
  `isViable`).

JS numbers are modelled as exact rationals (`ℚ`) where the code only moves
them around or divides, and as reals (`ℝ`) where logarithms are involved.
JS objects (string-keyed records) are modelled as association lists with
unique keys; `Object.entries` iteration order is the list order.
-/

namespace BeeBestie

/-! ### Association-list helpers (JS object model) -/

/-- First-match lookup in an association list (JS property access). -/
def alGet {κ α : Type} [DecidableEq κ] : List (κ × α) → κ → Option α
  | [], _ => none
  | (k, v) :: rest, key => if k = key then some v else alGet rest key

/-- Two-level lookup (outer context, then inner symbol). -/
def alGet2 {κ α : Type} [DecidableEq κ] (l : List (κ × List (κ × α))) (k1 k2 : κ) : Option α :=
  match alGet l k1 with
  | none => none
  | some inner => alGet inner k2

/-- JS property assignment: replace the first binding of the key in place,
or append a new binding at the end (JS objects keep insertion order). -/
def alSet {κ α : Type} [DecidableEq κ] : List (κ × α) → κ → α → List (κ × α)
  | [], key, v => [(key, v)]
  | (k, w) :: rest, key, v =>
    if k = key then (k, v) :: rest else (k, w) :: alSet rest key v

theorem alGet_alSet {κ α : Type} [DecidableEq κ] (l : List (κ × α)) (k key : κ) (v : α) :
    alGet (alSet l key v) k = if k = key then some v else alGet l k := by
  induction l with
  | nil =>
    by_cases h : k = key
    · simp [alSet, alGet, h]
    · simp [alSet, alGet, h, Ne.symm h]
  | cons hd tl ih =>
    obtain ⟨k0, w⟩ := hd
    by_cases h0 : k0 = key
    · subst h0
      by_cases h : k = k0
      · simp [alSet, alGet, h]
      · simp [alSet, alGet, h, Ne.symm h]
    · by_cases h : k = k0
      · subst h
        simp [alSet, alGet, h0, Ne.symm h0]
      · simp [alSet, alGet, h0, h, Ne.symm h, ih]

theorem alGet_eq_none_of_not_mem_keys {κ α : Type} [DecidableEq κ]
    (l : List (κ × α)) (k : κ) (h : k ∉ l.map Prod.fst) : alGet l k = none := by
  induction l with
  | nil => rfl
  | cons hd tl ih =>
    simp only [List.map_cons, List.mem_cons] at h
    push_neg at h
    simp [alGet, Ne.symm h.1, ih h.2]

/-! ### Trie data model

`TrieNode` from the source is a discriminated union: every node has a
`children` record keyed by single characters; terminal (`isEndOfWord = true`)
nodes additionally carry `frequency` (plus `articleCount` and
`hyphenatedForms`, which no operation verified here ever reads).  We model a
node as its children list plus `terminal : Option ℚ` holding the frequency
exactly when the node is a word end. -/

inductive TrieNode : Type where
  | mk (terminal : Option ℚ) (children : List (Char × TrieNode))

def TrieNode.terminal : TrieNode → Option ℚ
  | .mk t _ => t

def TrieNode.children : TrieNode → List (Char × TrieNode)
  | .mk _ c => c

/-- Character-by-character descent used by `find` / `has` / prefix lookup. -/
def TrieNode.walk : TrieNode → List Char → Option TrieNode
  | t, [] => some t
  | t, c :: rest =>
    match alGet t.children c with
    | none => none
    | some child => child.walk rest

/-- Dictionary membership: the word is a complete path of the (lazily loaded)
trie.  `loader c` is the decompressed, deserialized segment for first
character `c` (the subtree *below* the first letter, exactly as `getRoot`
attaches it). -/
def isInDict (loader : Char → TrieNode) (word : List Char) : Bool :=
  match word with
  | [] => false
  | c :: rest =>
    match (loader c).walk rest with
    | none => false
    | some t => t.terminal.isSome

mutual

/-- JS objects have unique property keys; a deserialized trie satisfies this
at every node. -/
def nodupTrie : TrieNode → Bool
  | .mk _ children =>
    decide ((children.map Prod.fst).Nodup) && nodupTrieList children
termination_by t => sizeOf t
decreasing_by all_goals (simp; try omega)

def nodupTrieList : List (Char × TrieNode) → Bool
  | [] => true
  | (_, t) :: rest => nodupTrie t && nodupTrieList rest
termination_by l => sizeOf l
decreasing_by all_goals (simp; try omega)

end

mutual

/-- The (out-of-scope) ingestion step builds the dictionary from lowercased
words, so every edge character of a loaded segment is lowercase. -/
def lowerTrie : TrieNode → Bool
  | .mk _ children => lowerTrieList children
termination_by t => sizeOf t
decreasing_by all_goals (simp; try omega)

def lowerTrieList : List (Char × TrieNode) → Bool
  | [] => true
  | (c, t) :: rest => (c.toLower == c) && lowerTrie t && lowerTrieList rest
termination_by l => sizeOf l
decreasing_by all_goals (simp; try omega)

end

mutual

/-- Whether any complete word is stored inside the subtree. -/
def hasWord : TrieNode → Bool
  | .mk terminal children => terminal.isSome || hasWordList children
termination_by t => sizeOf t
decreasing_by all_goals (simp; try omega)

def hasWordList : List (Char × TrieNode) → Bool
  | [] => false
  | (_, t) :: rest => hasWord t || hasWordList rest
termination_by l => sizeOf l
decreasing_by all_goals (simp; try omega)

end

/-! ### Commonality statistic (word-stats.ts) -/

/-- `eps = 1e-9`, the clamp guard around the logit. -/
def epsQ : ℚ := 1 / 1000000000

/-- `clamp(value, min, max) = Math.min(Math.max(value, min), max)` on ℚ. -/
def clampQ (value lo hi : ℚ) : ℚ := min (max value lo) hi

/-- Same clamp on ℝ (used for the final commonality value). -/
def clampR (value lo hi : ℝ) : ℝ := min (max value lo) hi

/-- `logit(x) = ln(x / (1 - x))` with `x` clamped to `[eps, 1 - eps]`. -/
noncomputable def logit (x : ℚ) : ℝ :=
  let c := clampQ x epsQ (1 - epsQ)
  Real.log ((c : ℝ) / (1 - (c : ℝ)))

/-- `computeCommonality` from word-stats.ts. -/
noncomputable def computeCommonality (probability minProbability maxProbability : ℚ) : ℝ :=
  clampR ((logit probability - logit minProbability) /
      (logit maxProbability - logit minProbability)) 0 1

/-- `WordFreqMetadata`: the nine aggregate corpus fields. -/
structure WordFreqMetadata : Type where
  wordCount : ℚ
  totalFrequency : ℚ
  minFrequency : ℚ
  maxFrequency : ℚ
  meanFrequency : ℚ
  medianFrequency : ℚ
  stddevFrequency : ℚ
  totalArticleCount : ℚ
  hyphenatesCount : ℚ

/-- `computeCommonalityFromMetadata`. -/
noncomputable def computeCommonalityFromMetadata (m : WordFreqMetadata) (freq : ℚ) : ℝ :=
  computeCommonality (freq / m.totalFrequency) (m.minFrequency / m.totalFrequency)
    (m.maxFrequency / m.totalFrequency)

/-- `WordStats` lookup result (words as character lists). -/
structure WordStats : Type where
  word : List Char
  found : Bool
  frequency : ℚ
  commonality : ℝ
  probability : ℚ

/-- `getWordStats(metadata, frequency)` plus the echoed `word` field the
callers spread in. -/
noncomputable def getWordStats (m : WordFreqMetadata) (frequency : ℚ) (word : List Char) :
    WordStats :=
  { word := word
    found := true
    frequency := frequency
    commonality := computeCommonalityFromMetadata m frequency
    probability := frequency / m.totalFrequency }

/-! ### WordFreqTrie.find

`find` lowercases the walk, but `getRoot(word[0])` keys the synthesized
root's child under the *original-case* first character (it looks the cache up
with `char.toLowerCase()` yet stores and attaches under `char`).  The model
below reproduces that behaviour for a fresh instance (empty cache). -/

/-- The `found = false` result `find` builds three times:
`{word, ...getWordStats(metadata, fallbackFreq), found: false}`. -/
noncomputable def notFoundStats (m : WordFreqMetadata) (fallbackFreq : ℚ)
    (word : List Char) : WordStats :=
  { getWordStats m fallbackFreq word with found := false }

noncomputable def find (loader : Char → TrieNode) (m : WordFreqMetadata)
    (word : List Char) (fallbackFreq : ℚ) : WordStats :=
  match word with
  | [] => notFoundStats m fallbackFreq word
  | c :: _ =>
    match (TrieNode.mk none [(c, loader c)]).walk (word.map Char.toLower) with
    | none => notFoundStats m fallbackFreq word
    | some t =>
      match t.terminal with
      | some freq => getWordStats m freq word
      | none => notFoundStats m fallbackFreq word

/-! ### WordFreqTrie.solve -/

mutual

/-- The recursive DFS helper inside `solve`: collect `(word, frequency)` of
every terminal reached through valid-letter edges.  The accepted-answer check
mirrors `prefix.length >= minLength && node.isEndOfWord && usedRequired`. -/
def solveDfs (validSet : List Char) (required : Char) (minLength : Nat) :
    TrieNode → List Char → Bool → List (List Char × ℚ)
  | .mk terminal children, pre, usedRequired =>
    (if minLength ≤ pre.length ∧ terminal.isSome ∧ usedRequired = true then
      [(pre, terminal.getD 0)]
    else []) ++
    solveDfsList validSet required minLength children pre usedRequired
termination_by t _ _ => sizeOf t
decreasing_by all_goals (simp; try omega)

/-- The `for (const [char, child] of Object.entries(node.children))` loop of
the DFS, in entry order. -/
def solveDfsList (validSet : List Char) (required : Char) (minLength : Nat) :
    List (Char × TrieNode) → List Char → Bool → List (List Char × ℚ)
  | [], _, _ => []
  | (c, t) :: rest, pre, usedRequired =>
    (if c ∈ validSet then
      solveDfs validSet required minLength t (pre ++ [c]) (usedRequired || c == required)
    else []) ++
    solveDfsList validSet required minLength rest pre usedRequired
termination_by l _ _ => sizeOf l
decreasing_by all_goals (simp; try omega)

end

/-- `solve(validLetters, requiredLetter, minLength)`: lowercase and dedup the
letters, synthesize the root over the valid set, DFS, and attach stats. -/
noncomputable def solve (loader : Char → TrieNode) (m : WordFreqMetadata)
    (validLetters : List Char) (requiredLetter : Char) (minLength : Nat) : List WordStats :=
  let validSet := (validLetters.map Char.toLower).dedup
  let required := requiredLetter.toLower
  let root : TrieNode := .mk none (validSet.map (fun c => (c, loader c)))
  (solveDfs validSet required minLength root [] false).map
    (fun wf => getWordStats m wf.2 wf.1)

/-! ### Basic lemmas about the helpers -/

theorem alGet_mem {κ α : Type} [DecidableEq κ] :
    ∀ {l : List (κ × α)} {k : κ} {v : α}, alGet l k = some v → (k, v) ∈ l := by
  intro l
  induction l with
  | nil => intro k v h; simp [alGet] at h
  | cons hd tl ih =>
    intro k v h
    obtain ⟨k0, w⟩ := hd
    by_cases hk : k0 = k
    · subst hk
      simp [alGet] at h
      simp [h]
    · simp [alGet, hk] at h
      exact List.mem_cons_of_mem _ (ih h)

theorem alGet_of_mem_nodup {κ α : Type} [DecidableEq κ] :
    ∀ {l : List (κ × α)} {k : κ} {v : α}, (l.map Prod.fst).Nodup → (k, v) ∈ l →
      alGet l k = some v := by
  intro l
  induction l with
  | nil => intro k v _ h; simp at h
  | cons hd tl ih =>
    intro k v hnd hm
    obtain ⟨k0, w⟩ := hd
    simp only [List.map_cons, List.nodup_cons] at hnd
    rcases List.mem_cons.mp hm with h | h
    · obtain ⟨h1, h2⟩ := Prod.mk.injEq .. ▸ h
      injection h with h
      simp_all [alGet]
    · have hk : k0 ≠ k := by
        intro he
        subst he
        exact hnd.1 (List.mem_map.mpr ⟨(k0, v), h, rfl⟩)
      simp [alGet, hk, ih hnd.2 h]

theorem alGet_map_self {κ α : Type} [DecidableEq κ] (f : κ → α) :
    ∀ (l : List κ) (k : κ),
      alGet (l.map (fun a => (a, f a))) k = if k ∈ l then some (f k) else none := by
  intro l
  induction l with
  | nil => intro k; simp [alGet]
  | cons hd tl ih =>
    intro k
    by_cases hk : hd = k
    · subst hk
      simp [alGet]
    · simp [alGet, hk, Ne.symm hk, ih k]

theorem nodupTrieList_mem :
    ∀ {children : List (Char × TrieNode)}, nodupTrieList children = true →
      ∀ c t, (c, t) ∈ children → nodupTrie t = true := by
  intro children
  induction children with
  | nil => intro _ c t hm; simp at hm
  | cons hd tl ih =>
    obtain ⟨c0, t0⟩ := hd
    intro h c t hm
    simp only [nodupTrieList] at h
    simp only [Bool.and_eq_true] at h
    rcases List.mem_cons.mp hm with heq | hmem
    · injection heq with h1 h2
      subst h2
      exact h.1
    · exact ih h.2 c t hmem

theorem nodupTrie_inv {terminal : Option ℚ} {children : List (Char × TrieNode)}
    (h : nodupTrie (.mk terminal children) = true) :
    (children.map Prod.fst).Nodup ∧ ∀ c t, (c, t) ∈ children → nodupTrie t = true := by
  simp only [nodupTrie] at h
  simp only [Bool.and_eq_true, decide_eq_true_eq] at h
  exact ⟨h.1, nodupTrieList_mem h.2⟩

theorem lowerTrieList_mem :
    ∀ {children : List (Char × TrieNode)}, lowerTrieList children = true →
      ∀ c t, (c, t) ∈ children → c.toLower = c ∧ lowerTrie t = true := by
  intro children
  induction children with
  | nil => intro _ c t hm; simp at hm
  | cons hd tl ih =>
    obtain ⟨c0, t0⟩ := hd
    intro h c t hm
    simp only [lowerTrieList] at h
    simp only [Bool.and_eq_true, beq_iff_eq] at h
    rcases List.mem_cons.mp hm with heq | hmem
    · injection heq with h1 h2
      subst h1; subst h2
      exact ⟨h.1.1, h.1.2⟩
    · exact ih h.2 c t hmem

theorem lowerTrie_inv {terminal : Option ℚ} {children : List (Char × TrieNode)}
    (h : lowerTrie (.mk terminal children) = true) :
    ∀ c t, (c, t) ∈ children → c.toLower = c ∧ lowerTrie t = true := by
  simp only [lowerTrie] at h
  exact lowerTrieList_mem h

theorem hasWordList_false_mem :
    ∀ {children : List (Char × TrieNode)}, hasWordList children = false →
      ∀ c t, (c, t) ∈ children → hasWord t = false := by
  intro children
  induction children with
  | nil => intro _ c t hm; simp at hm
  | cons hd tl ih =>
    obtain ⟨c0, t0⟩ := hd
    intro h c t hm
    simp only [hasWordList] at h
    simp only [Bool.or_eq_false_iff] at h
    rcases List.mem_cons.mp hm with heq | hmem
    · injection heq with h1 h2
      subst h2
      exact h.1
    · exact ih h.2 c t hmem

theorem hasWord_false_inv {terminal : Option ℚ} {children : List (Char × TrieNode)}
    (h : hasWord (.mk terminal children) = false) :
    terminal = none ∧ ∀ c t, (c, t) ∈ children → hasWord t = false := by
  simp only [hasWord] at h
  simp only [Bool.or_eq_false_iff] at h
  refine ⟨?_, hasWordList_false_mem h.2⟩
  have h1 := h.1
  cases terminal <;> simp_all

theorem walk_lower :
    ∀ (suf : List Char) (t : TrieNode), lowerTrie t = true →
      ∀ t', t.walk suf = some t' → ∀ c ∈ suf, c.toLower = c := by
  intro suf
  induction suf with
  | nil => intro t _ t' _ c hc; simp at hc
  | cons c0 rest ih =>
    intro t hlow t' hwalk c hc
    obtain ⟨term, children⟩ := t
    rw [TrieNode.walk] at hwalk
    rcases hget : alGet (TrieNode.mk term children).children c0 with _ | child
    · rw [hget] at hwalk; exact absurd hwalk (by simp)
    · rw [hget] at hwalk
      have hmem := alGet_mem hget
      have hcc := lowerTrie_inv hlow c0 child hmem
      rcases List.mem_cons.mp hc with h | h
      · subst h; exact hcc.1
      · exact ih child hcc.2 t' hwalk c h

theorem hasWordList_of_mem :
    ∀ {children : List (Char × TrieNode)} {c : Char} {t : TrieNode},
      (c, t) ∈ children → hasWord t = true → hasWordList children = true := by
  intro children
  induction children with
  | nil => intro c t hm _; simp at hm
  | cons hd tl ih =>
    intro c t hm ht
    obtain ⟨c0, t0⟩ := hd
    simp only [hasWordList]
    rcases List.mem_cons.mp hm with heq | hm2
    · injection heq with h1 h2
      subst h2
      simp [ht]
    · simp [ih hm2 ht]

theorem hasWord_of_walk :
    ∀ (suf : List Char) (t : TrieNode) (t' : TrieNode) (fr : ℚ),
      t.walk suf = some t' → t'.terminal = some fr → hasWord t = true := by
  intro suf
  induction suf with
  | nil =>
    intro t t' fr hwalk hterm
    rw [TrieNode.walk] at hwalk
    injection hwalk with h
    subst h
    obtain ⟨term, children⟩ := t
    simp only [hasWord]
    simp only [TrieNode.terminal] at hterm
    simp [hterm]
  | cons c0 rest ih =>
    intro t t' fr hwalk hterm
    obtain ⟨term, children⟩ := t
    rw [TrieNode.walk] at hwalk
    rcases hget : alGet (TrieNode.mk term children).children c0 with _ | child
    · rw [hget] at hwalk; exact absurd hwalk (by simp)
    · rw [hget] at hwalk
      have hmem := alGet_mem hget
      simp only [hasWord]
      have hchild := ih child t' fr hwalk hterm
      have hlist : hasWordList children = true := hasWordList_of_mem hmem hchild
      simp [hlist]

/-! ### Characterization of the solve DFS -/

theorem mem_solveDfsList (vs : List Char) (req : Char) (minLen : Nat) :
    ∀ (children : List (Char × TrieNode)) (pre : List Char) (used : Bool)
      (w : List Char) (fr : ℚ),
      ((w, fr) ∈ solveDfsList vs req minLen children pre used ↔
        ∃ c t, (c, t) ∈ children ∧ c ∈ vs ∧
          (w, fr) ∈ solveDfs vs req minLen t (pre ++ [c]) (used || c == req)) := by
  intro children
  induction children with
  | nil => intro pre used w fr; simp [solveDfsList]
  | cons hd tl ih =>
    intro pre used w fr
    obtain ⟨c0, t0⟩ := hd
    simp only [solveDfsList, List.mem_append]
    constructor
    · intro h
      rcases h with h | h
      · by_cases hc : c0 ∈ vs
        · rw [if_pos hc] at h
          exact ⟨c0, t0, List.mem_cons_self _ _, hc, h⟩
        · rw [if_neg hc] at h; simp at h
      · obtain ⟨c, t, hm, hc, hmem⟩ := (ih pre used w fr).mp h
        exact ⟨c, t, List.mem_cons_of_mem _ hm, hc, hmem⟩
    · rintro ⟨c, t, hm, hc, hmem⟩
      rcases List.mem_cons.mp hm with heq | hm2
      · injection heq with h1 h2
        subst h1; subst h2
        left
        rw [if_pos hc]
        exact hmem
      · right
        exact (ih pre used w fr).mpr ⟨c, t, hm2, hc, hmem⟩

theorem solveDfs_mem (vs : List Char) (req : Char) (minLen : Nat) :
    ∀ (n : Nat) (t : TrieNode), sizeOf t < n → nodupTrie t = true →
      ∀ (pre : List Char) (used : Bool) (w : List Char) (fr : ℚ),
        ((w, fr) ∈ solveDfs vs req minLen t pre used ↔
          ∃ suf, w = pre ++ suf ∧ (∀ c ∈ suf, c ∈ vs) ∧
            (∃ t', t.walk suf = some t' ∧ t'.terminal = some fr) ∧
            minLen ≤ w.length ∧ (used = true ∨ req ∈ suf)) := by
  intro n
  induction n with
  | zero => intro t ht; exact absurd ht (Nat.not_lt_zero _)
  | succ n ih =>
    intro t ht hnd pre used w fr
    obtain ⟨terminal, children⟩ := t
    have hsz : sizeOf (TrieNode.mk terminal children) = 1 + sizeOf terminal + sizeOf children := by
      simp
    obtain ⟨hkeys, hchild⟩ := nodupTrie_inv hnd
    simp only [solveDfs, List.mem_append]
    constructor
    · intro h
      rcases h with h | h
      · by_cases hcond : minLen ≤ pre.length ∧ terminal.isSome ∧ used = true
        · rw [if_pos hcond] at h
          simp only [List.mem_singleton, Prod.mk.injEq] at h
          obtain ⟨hw, hfr⟩ := h
          obtain ⟨q, hq⟩ := Option.isSome_iff_exists.mp hcond.2.1
          refine ⟨[], by simp [hw], by simp, ⟨TrieNode.mk terminal children, rfl, ?_⟩, ?_,
            Or.inl hcond.2.2⟩
          · simp only [TrieNode.terminal, hq]
            simp only [hq, Option.getD_some] at hfr
            rw [hfr]
          · rw [hw]
            exact hcond.1
        · rw [if_neg hcond] at h; simp at h
      · obtain ⟨c, t0, hm, hcvs, hmem⟩ := (mem_solveDfsList vs req minLen children pre used w fr).mp h
        have hszc : sizeOf t0 < n := by
          have h1 := List.sizeOf_lt_of_mem hm
          simp only [Prod.mk.sizeOf_spec] at h1
          omega
        obtain ⟨suf', hweq, hsub, ⟨t', hwalk, hterm⟩, hlen, hdisj⟩ :=
          (ih t0 hszc (hchild c t0 hm) (pre ++ [c]) (used || c == req) w fr).mp hmem
        refine ⟨c :: suf', by simp [hweq], ?_, ⟨t', ?_, hterm⟩, hlen, ?_⟩
        · intro x hx
          rcases List.mem_cons.mp hx with hx | hx
          · subst hx; exact hcvs
          · exact hsub x hx
        · rw [TrieNode.walk]
          have hget : alGet (TrieNode.mk terminal children).children c = some t0 := by
            simp only [TrieNode.children]
            exact alGet_of_mem_nodup hkeys hm
          rw [hget]
          exact hwalk
        · rcases hdisj with hdisj | hdisj
          · rw [Bool.or_eq_true] at hdisj
            rcases hdisj with hu | hu
            · exact Or.inl hu
            · right
              rw [beq_iff_eq] at hu
              rw [← hu]
              exact List.mem_cons_self _ _
          · exact Or.inr (List.mem_cons_of_mem _ hdisj)
    · rintro ⟨suf, hweq, hsub, ⟨t', hwalk, hterm⟩, hlen, hdisj⟩
      cases suf with
      | nil =>
        rw [TrieNode.walk] at hwalk
        injection hwalk with hwalk
        subst hwalk
        simp only [TrieNode.terminal] at hterm
        have hused : used = true := by
          rcases hdisj with h | h
          · exact h
          · simp at h
        left
        rw [if_pos ⟨by simpa [hweq] using hlen, by simp [hterm], hused⟩]
        rw [List.mem_singleton, Prod.ext_iff]
        exact ⟨by simp [hweq], by simp [hterm]⟩
      | cons c suf' =>
        rw [TrieNode.walk] at hwalk
        cases hget : alGet (TrieNode.mk terminal children).children c with
        | none => rw [hget] at hwalk; simp at hwalk
        | some child =>
          rw [hget] at hwalk
          have hm : (c, child) ∈ children := by
            have := alGet_mem hget
            simpa [TrieNode.children] using this
          have hcvs : c ∈ vs := hsub c (List.mem_cons_self _ _)
          have hszc : sizeOf child < n := by
            have h1 := List.sizeOf_lt_of_mem hm
            simp only [Prod.mk.sizeOf_spec] at h1
            omega
          right
          apply (mem_solveDfsList vs req minLen children pre used w fr).mpr
          refine ⟨c, child, hm, hcvs, ?_⟩
          apply (ih child hszc (hchild c child hm) (pre ++ [c]) (used || c == req) w fr).mpr
          refine ⟨suf', by simp [hweq], fun x hx => hsub x (List.mem_cons_of_mem _ hx),
            ⟨t', hwalk, hterm⟩, hlen, ?_⟩
          rcases hdisj with h | h
          · left; simp [h]
          · rcases List.mem_cons.mp h with h | h
            · left; simp [h]
            · exact Or.inr h

theorem solveDfs_nilResult (vs : List Char) (req : Char) (minLen : Nat) (hreq : req ∉ vs) :
    ∀ (n : Nat) (t : TrieNode), sizeOf t < n → ∀ pre,
      solveDfs vs req minLen t pre false = [] := by
  intro n
  induction n with
  | zero => intro t ht; exact absurd ht (Nat.not_lt_zero _)
  | succ n ih =>
    intro t ht pre
    obtain ⟨terminal, children⟩ := t
    have hsz : sizeOf (TrieNode.mk terminal children) = 1 + sizeOf terminal + sizeOf children := by
      simp
    simp only [solveDfs]
    have hhere : (if minLen ≤ pre.length ∧ terminal.isSome ∧ false = true then
        [(pre, terminal.getD 0)] else []) = ([] : List (List Char × ℚ)) := by
      simp
    rw [hhere, List.nil_append]
    have hlist : ∀ (l : List (Char × TrieNode)), sizeOf l ≤ sizeOf children →
        solveDfsList vs req minLen l pre false = [] := by
      intro l
      induction l with
      | nil => intro _; simp [solveDfsList]
      | cons hd tl ihl =>
        intro hszl
        obtain ⟨c, t0⟩ := hd
        simp only [solveDfsList]
        have htl : solveDfsList vs req minLen tl pre false = [] := by
          apply ihl
          simp only [List.cons.sizeOf_spec] at hszl
          omega
        rw [htl]
        by_cases hc : c ∈ vs
        · rw [if_pos hc]
          have hcr : (c == req) = false := by
            rw [beq_eq_false_iff_ne]
            intro he
            subst he
            exact hreq hc
          rw [hcr]
          have hszc : sizeOf t0 < n := by
            simp only [List.cons.sizeOf_spec, Prod.mk.sizeOf_spec] at hszl
            omega
          simp [ih t0 hszc]
        · rw [if_neg hc]
          simp
    exact hlist children (le_refl _)

theorem mem_solve_iff (loader : Char → TrieNode) (m : WordFreqMetadata)
    (validLetters : List Char) (requiredLetter : Char) (minLength : Nat) (w : List Char) :
    (∃ s ∈ solve loader m validLetters requiredLetter minLength, s.word = w) ↔
      ∃ fr, (w, fr) ∈ solveDfs ((validLetters.map Char.toLower).dedup)
        requiredLetter.toLower minLength
        (TrieNode.mk none (((validLetters.map Char.toLower).dedup).map
          (fun c => (c, loader c)))) [] false := by
  simp only [solve, List.mem_map]
  constructor
  · rintro ⟨s, ⟨wf, hwf, hs⟩, hword⟩
    refine ⟨wf.2, ?_⟩
    have h1 : wf.1 = w := by
      rw [← hs] at hword
      exact hword
    have h2 : wf = (w, wf.2) := by
      rw [← h1]
    rwa [h2] at hwf
  · rintro ⟨fr, hmem⟩
    exact ⟨getWordStats m fr w, ⟨(w, fr), hmem, rfl⟩, rfl⟩

theorem nodupTrieList_map (loader : Char → TrieNode)
    (hnd : ∀ ch, nodupTrie (loader ch) = true) :
    ∀ (l : List Char), nodupTrieList (l.map (fun c => (c, loader c))) = true := by
  intro l
  induction l with
  | nil => simp [nodupTrieList]
  | cons hd tl ih => simp [nodupTrieList, hnd hd, ih]

theorem nodupTrie_root (loader : Char → TrieNode) (vs : List Char) (hvs : vs.Nodup)
    (hnd : ∀ ch, nodupTrie (loader ch) = true) :
    nodupTrie (TrieNode.mk none (vs.map (fun c => (c, loader c)))) = true := by
  simp only [nodupTrie, Bool.and_eq_true, decide_eq_true_eq]
  refine ⟨?_, nodupTrieList_map loader hnd vs⟩
  simp only [List.map_map]
  have h1 : (Prod.fst ∘ fun c => (c, loader c)) = id := rfl
  rw [h1, List.map_id]
  exact hvs

/-- C1: `solve(validLetters, requiredLetter, minLength)` returns exactly the
dictionary words of length at least `minLength` whose characters all lie in
the (case-insensitively compared) valid letters and which contain the
required letter — sound and exhaustive.  The hypotheses state the dictionary
invariants guaranteed by ingestion: unique child keys, lowercase edges, and
segments only for lowercase first letters. -/
theorem solve_spec (loader : Char → TrieNode) (m : WordFreqMetadata)
    (validLetters : List Char) (requiredLetter : Char) (minLength : Nat)
    (hnodup : ∀ ch, nodupTrie (loader ch) = true)
    (hlower : ∀ ch, lowerTrie (loader ch) = true)
    (hsegs : ∀ ch, ch.toLower ≠ ch → hasWord (loader ch) = false)
    (w : List Char) :
    (∃ s ∈ solve loader m validLetters requiredLetter minLength, s.word = w) ↔
      (isInDict loader w = true ∧ minLength ≤ w.length ∧
        (∀ c ∈ w, c.toLower ∈ validLetters.map Char.toLower) ∧
        requiredLetter.toLower ∈ w) := by
  rw [mem_solve_iff]
  have hrootnd :
      nodupTrie (TrieNode.mk none (((validLetters.map Char.toLower).dedup).map
        (fun c => (c, loader c)))) = true :=
    nodupTrie_root loader _ (List.nodup_dedup _) hnodup
  constructor
  · rintro ⟨fr, hmem⟩
    obtain ⟨suf, hweq, hsub, ⟨t', hwalk, hterm⟩, hlen, hdisj⟩ :=
      (solveDfs_mem _ _ _ (sizeOf (TrieNode.mk none
          (((validLetters.map Char.toLower).dedup).map (fun c => (c, loader c)))) + 1)
        _ (Nat.lt_succ_self _) hrootnd [] false w fr).mp hmem
    have hwsuf : w = suf := by simpa using hweq
    cases suf with
    | nil =>
      rw [TrieNode.walk] at hwalk
      injection hwalk with hwalk
      rw [← hwalk] at hterm
      simp [TrieNode.terminal] at hterm
    | cons c rest =>
      have hcvs : c ∈ (validLetters.map Char.toLower).dedup := hsub c (List.mem_cons_self _ _)
      rw [TrieNode.walk] at hwalk
      have hget : alGet (TrieNode.mk none (((validLetters.map Char.toLower).dedup).map
          (fun c => (c, loader c)))).children c = some (loader c) := by
        simp only [TrieNode.children]
        rw [alGet_map_self]
        rw [if_pos hcvs]
      rw [hget] at hwalk
      have hwalk2 : (loader c).walk rest = some t' := hwalk
      have hlowc : c.toLower = c := by
        by_contra hcl
        have h1 := hsegs c hcl
        have h2 := hasWord_of_walk rest (loader c) t' fr hwalk2 hterm
        rw [h1] at h2
        exact absurd h2 (by simp)
      have hlowrest : ∀ x ∈ rest, x.toLower = x :=
        walk_lower rest (loader c) (hlower c) t' hwalk2
      refine ⟨?_, by rwa [hwsuf] at hlen ⊢, ?_, ?_⟩
      · rw [hwsuf]
        simp only [isInDict]
        rw [hwalk2]
        simp [hterm]
      · intro x hx
        rw [hwsuf] at hx
        have hxlow : x.toLower = x := by
          rcases List.mem_cons.mp hx with h | h
          · rw [h]; exact hlowc
          · exact hlowrest x h
        have hxvs : x ∈ (validLetters.map Char.toLower).dedup := hsub x hx
        rw [hxlow]
        exact List.mem_dedup.mp hxvs
      · rcases hdisj with h | h
        · simp at h
        · rwa [hwsuf]
  · rintro ⟨hdict, hlen, hchars, hreqmem⟩
    cases w with
    | nil => simp [isInDict] at hdict
    | cons c rest =>
      simp only [isInDict] at hdict
      cases hwalk0 : (loader c).walk rest with
      | none =>
        rw [hwalk0] at hdict
        have hF : (false : Bool) = true := hdict
        exact absurd hF (by simp)
      | some t' =>
        rw [hwalk0] at hdict
        have hdict2 : t'.terminal.isSome = true := hdict
        obtain ⟨fr, hterm⟩ := Option.isSome_iff_exists.mp hdict2
        have hlowc : c.toLower = c := by
          by_contra hcl
          have h1 := hsegs c hcl
          have h2 := hasWord_of_walk rest (loader c) t' fr hwalk0 hterm
          rw [h1] at h2
          exact absurd h2 (by simp)
        have hlowrest : ∀ x ∈ rest, x.toLower = x :=
          walk_lower rest (loader c) (hlower c) t' hwalk0
        have hsubs : ∀ x ∈ c :: rest, x ∈ (validLetters.map Char.toLower).dedup := by
          intro x hx
          have hxlow : x.toLower = x := by
            rcases List.mem_cons.mp hx with h | h
            · rw [h]; exact hlowc
            · exact hlowrest x h
          apply List.mem_dedup.mpr
          rw [← hxlow]
          exact hchars x hx
        refine ⟨fr, ?_⟩
        apply (solveDfs_mem _ _ _ (sizeOf (TrieNode.mk none
            (((validLetters.map Char.toLower).dedup).map (fun c => (c, loader c)))) + 1)
          _ (Nat.lt_succ_self _) hrootnd [] false (c :: rest) fr).mpr
        refine ⟨c :: rest, by simp, hsubs, ⟨t', ?_, hterm⟩, hlen, Or.inr hreqmem⟩
        rw [TrieNode.walk]
        have hget : alGet (TrieNode.mk none (((validLetters.map Char.toLower).dedup).map
            (fun c => (c, loader c)))).children c = some (loader c) := by
          simp only [TrieNode.children]
          rw [alGet_map_self]
          rw [if_pos (hsubs c (List.mem_cons_self _ _))]
        rw [hget]
        exact hwalk0

/-- Concrete dictionary used by the witnesses: every lowercase first letter
has a segment containing the single continuation `b` (a terminal of
frequency 5); uppercase letters have no segment content. -/
def segExample : TrieNode := .mk none [('b', .mk (some 5) [])]

def emptySeg : TrieNode := .mk none []

def loaderExample : Char → TrieNode := fun ch =>
  if ch.toLower = ch then segExample else emptySeg

def metaExample : WordFreqMetadata :=
  { wordCount := 9, totalFrequency := 100, minFrequency := 1, maxFrequency := 50
    meanFrequency := 11, medianFrequency := 8, stddevFrequency := 3
    totalArticleCount := 42, hyphenatesCount := 0 }

theorem loaderExample_nodup : ∀ ch, nodupTrie (loaderExample ch) = true := by
  intro ch
  unfold loaderExample
  split
  · simp [segExample, nodupTrie, nodupTrieList]
  · simp [emptySeg, nodupTrie, nodupTrieList]

theorem loaderExample_lower : ∀ ch, lowerTrie (loaderExample ch) = true := by
  intro ch
  unfold loaderExample
  split
  · simp only [segExample, lowerTrie, lowerTrieList]
    decide
  · simp [emptySeg, lowerTrie, lowerTrieList]

theorem loaderExample_segs : ∀ ch, ch.toLower ≠ ch → hasWord (loaderExample ch) = false := by
  intro ch h
  unfold loaderExample
  rw [if_neg h]
  simp [emptySeg, hasWord, hasWordList]

theorem solve_spec_witness :
    ∃ s ∈ solve loaderExample metaExample ['a', 'b'] 'b' 2, s.word = ['a', 'b'] := by
  apply (solve_spec loaderExample metaExample ['a', 'b'] 'b' 2 loaderExample_nodup
    loaderExample_lower loaderExample_segs ['a', 'b']).mpr
  refine ⟨?_, by decide, by decide, by decide⟩
  decide

/-- C10: if the required letter is not among the valid letters (both
lowercased), `solve` returns the empty list, for every dictionary content and
every minimum length. -/
theorem solve_empty_of_required_missing (loader : Char → TrieNode) (m : WordFreqMetadata)
    (validLetters : List Char) (requiredLetter : Char) (minLength : Nat)
    (hreq : requiredLetter.toLower ∉ validLetters.map Char.toLower) :
    solve loader m validLetters requiredLetter minLength = [] := by
  simp only [solve]
  rw [solveDfs_nilResult ((validLetters.map Char.toLower).dedup) requiredLetter.toLower
    minLength (fun hmem => hreq (List.mem_dedup.mp hmem))
    (sizeOf (TrieNode.mk none (((validLetters.map Char.toLower).dedup).map
      (fun c => (c, loader c)))) + 1) _ (Nat.lt_succ_self _) []]
  rfl

theorem solve_empty_of_required_missing_witness :
    solve loaderExample metaExample ['a', 'b'] 'z' 1 = [] :=
  solve_empty_of_required_missing loaderExample metaExample ['a', 'b'] 'z' 1 (by decide)

/-! ### find: fallback behaviour and the case bug -/

/-- C7: on a word whose lowercased form is absent from the dictionary, `find`
returns `found = false` with `frequency` exactly the supplied fallback; on
the empty string it returns `found = false`, `frequency` equal to the
fallback (the source default is 0), and `probability = 0` when the fallback
is 0. -/
theorem find_missing_returns_fallback (loader : Char → TrieNode) (m : WordFreqMetadata)
    (word : List Char) (fallbackFreq : ℚ)
    (habsent : isInDict loader (word.map Char.toLower) = false) :
    ((find loader m word fallbackFreq).found = false ∧
      (find loader m word fallbackFreq).frequency = fallbackFreq) ∧
    (∀ fb : ℚ, (find loader m [] fb).found = false ∧
      (find loader m [] fb).frequency = fb ∧
      (fb = 0 → (find loader m [] fb).probability = 0)) := by
  constructor
  · cases word with
    | nil => exact ⟨rfl, rfl⟩
    | cons c rest =>
      simp only [find]
      cases hw : (TrieNode.mk none [(c, loader c)]).walk ((c :: rest).map Char.toLower) with
      | none => exact ⟨rfl, rfl⟩
      | some t =>
        have hstep : (match (some t : Option TrieNode) with
            | none => notFoundStats m fallbackFreq (c :: rest)
            | some t =>
              match t.terminal with
              | some freq => getWordStats m freq (c :: rest)
              | none => notFoundStats m fallbackFreq (c :: rest)) =
            (match t.terminal with
              | some freq => getWordStats m freq (c :: rest)
              | none => notFoundStats m fallbackFreq (c :: rest)) := rfl
        rw [hstep]
        cases ht : t.terminal with
        | none => exact ⟨rfl, rfl⟩
        | some q =>
          exfalso
          rw [List.map_cons, TrieNode.walk] at hw
          by_cases hcl : c = c.toLower
          · have hget : alGet (TrieNode.mk none [(c, loader c)]).children c.toLower
                = some (loader c) := by
              simp only [TrieNode.children, alGet]
              rw [if_pos hcl]
            rw [hget] at hw
            have hw2 : (loader c).walk (rest.map Char.toLower) = some t := hw
            simp only [List.map_cons, isInDict] at habsent
            rw [← hcl, hw2] at habsent
            have habsent2 : t.terminal.isSome = false := habsent
            rw [ht] at habsent2
            simp at habsent2
          · have hget : alGet (TrieNode.mk none [(c, loader c)]).children c.toLower
                = none := by
              simp only [TrieNode.children, alGet]
              rw [if_neg hcl]
            rw [hget] at hw
            exact absurd hw (by simp)
  · intro fb
    refine ⟨rfl, rfl, fun hfb => ?_⟩
    show fb / m.totalFrequency = 0
    rw [hfb, zero_div]

theorem find_missing_returns_fallback_witness :
    (find loaderExample metaExample ['z', 'q'] 7).found = false ∧
    (find loaderExample metaExample ['z', 'q'] 7).frequency = 7 :=
  (find_missing_returns_fallback loaderExample metaExample ['z', 'q'] 7 (by decide)).1

/-- A case-insensitive loader: every first-character key is served the same
segment (so a missing-segment failure cannot explain a lookup miss). -/
def loaderCI : Char → TrieNode := fun _ => segExample

/-- C6 (code bug): `find` is supposed to normalize its query to lowercase,
so a dictionary word must be found regardless of the query's case; but
`getRoot` keys the synthesized root's child under the original-case first
character while the walk uses the lowercased word, so a query with an
uppercase first character is never found.  Here the dictionary stores "ab"
(`find "ab"` succeeds) yet `find "Ab"` fails, on the same (fresh) trie whose
loader serves the same segment for `A` and `a`. -/
theorem find_uppercase_first_char_bug :
    (find loaderCI metaExample ['a', 'b'] 0).found = true ∧
    (find loaderCI metaExample ['A', 'b'] 0).found = false :=
  ⟨rfl, rfl⟩

/-! ### Commonality: bounds and monotonicity (C8) -/

theorem clampQ_mono {a b lo hi : ℚ} (h : a ≤ b) : clampQ a lo hi ≤ clampQ b lo hi :=
  min_le_min (max_le_max h (le_refl lo)) (le_refl hi)

theorem clampQ_mem {x lo hi : ℚ} (hlohi : lo ≤ hi) :
    lo ≤ clampQ x lo hi ∧ clampQ x lo hi ≤ hi :=
  ⟨le_min (le_max_right _ _) hlohi, min_le_right _ _⟩

theorem logit_mono {x y : ℚ} (h : x ≤ y) : logit x ≤ logit y := by
  unfold logit
  have heps : epsQ ≤ 1 - epsQ := by norm_num [epsQ]
  have hepos : (0 : ℚ) < epsQ := by norm_num [epsQ]
  have hlt1 : 1 - epsQ < 1 := by norm_num [epsQ]
  set a := clampQ x epsQ (1 - epsQ) with ha
  set b := clampQ y epsQ (1 - epsQ) with hb
  have hab : a ≤ b := clampQ_mono h
  obtain ⟨ha1, ha2⟩ := clampQ_mem (x := x) heps
  obtain ⟨hb1, hb2⟩ := clampQ_mem (x := y) heps
  have hapos : (0 : ℝ) < (a : ℝ) := by exact_mod_cast lt_of_lt_of_le hepos ha1
  have hbpos : (0 : ℝ) < (b : ℝ) := by exact_mod_cast lt_of_lt_of_le hepos hb1
  have h1a : (0 : ℝ) < 1 - (a : ℝ) := by
    have h2 : (a : ℝ) < 1 := by exact_mod_cast lt_of_le_of_lt ha2 hlt1
    linarith
  have h1b : (0 : ℝ) < 1 - (b : ℝ) := by
    have h2 : (b : ℝ) < 1 := by exact_mod_cast lt_of_le_of_lt hb2 hlt1
    linarith
  apply Real.log_le_log (div_pos hapos h1a)
  rw [div_le_div_iff₀ h1a h1b]
  have habR : (a : ℝ) ≤ (b : ℝ) := by exact_mod_cast hab
  nlinarith

theorem clampR_mono {a b lo hi : ℝ} (h : a ≤ b) : clampR a lo hi ≤ clampR b lo hi :=
  min_le_min (max_le_max h (le_refl lo)) (le_refl hi)

theorem computeCommonality_mem (p minP maxP : ℚ) :
    0 ≤ computeCommonality p minP maxP ∧ computeCommonality p minP maxP ≤ 1 := by
  unfold computeCommonality clampR
  exact ⟨le_min (le_max_right _ _) zero_le_one, min_le_right _ _⟩

theorem computeCommonality_mono {p1 p2 minP maxP : ℚ} (h12 : p1 ≤ p2) (hmm : minP ≤ maxP) :
    computeCommonality p1 minP maxP ≤ computeCommonality p2 minP maxP := by
  unfold computeCommonality
  have hD0 : 0 ≤ logit maxP - logit minP := sub_nonneg.mpr (logit_mono hmm)
  rcases eq_or_lt_of_le hD0 with hDeq | hDpos
  · rw [← hDeq]
    simp
  · apply clampR_mono
    rw [div_le_div_iff_of_pos_right hDpos]
    exact sub_le_sub_right (logit_mono h12) _

/-- C8: with positive total frequency and `minFrequency < maxFrequency`, the
commonality statistic lies in `[0, 1]` and is non-decreasing in the raw
frequency (the logit is monotone and the final value is clamped). -/
theorem commonality_bounds_monotone (m : WordFreqMetadata)
    (hT : 0 < m.totalFrequency) (hmm : m.minFrequency < m.maxFrequency) (f1 f2 : ℚ) :
    (0 ≤ computeCommonalityFromMetadata m f1 ∧ computeCommonalityFromMetadata m f1 ≤ 1) ∧
    (f1 ≤ f2 → computeCommonalityFromMetadata m f1 ≤ computeCommonalityFromMetadata m f2) := by
  unfold computeCommonalityFromMetadata
  refine ⟨computeCommonality_mem _ _ _, fun h12 => ?_⟩
  apply computeCommonality_mono
  · exact (div_le_div_iff_of_pos_right hT).mpr h12
  · exact (div_le_div_iff_of_pos_right hT).mpr hmm.le

theorem commonality_bounds_monotone_witness :
    (0 ≤ computeCommonalityFromMetadata metaExample 5 ∧
      computeCommonalityFromMetadata metaExample 5 ≤ 1) ∧
    computeCommonalityFromMetadata metaExample 5 ≤ computeCommonalityFromMetadata metaExample 7 := by
  have h := commonality_bounds_monotone metaExample (by norm_num [metaExample])
    (by norm_num [metaExample]) 5 7
  exact ⟨h.1, h.2 (by norm_num)⟩

/-! ### Phonotactic model: training (phonotactic.ts)

`Transitions = Record<string, Record<string, number>>`; the value type is a
parameter so that count tables (ℕ) and log-probability tables (ℝ) share the
shape, and generation/filtering (which never read the numbers) stay
executable. -/

abbrev Transitions (α : Type) : Type := List (String × List (String × α))

/-- The syllable wrapped in boundary markers: `` `^^${syllable}$$` ``. -/
def tokenizeSyl (syl : String) : List Char :=
  '^' :: '^' :: (syl.data ++ ['$', '$'])

/-- Every sliding window `(tokenized.slice(i, i+2), tokenized[i+2])`. -/
def windows3 : List Char → List (String × String)
  | a :: b :: c :: rest => (String.mk [a, b], String.mk [c]) :: windows3 (b :: c :: rest)
  | _ => []

/-- Adjacent pairs `(sylTokenized[i], sylTokenized[i+1])`. -/
def adjacentPairs : List String → List (String × String)
  | a :: b :: rest => (a, b) :: adjacentPairs (b :: rest)
  | _ => []

/-- `/[^a-z]/i.test(word)`: some character is not a letter. -/
def hasNonAlpha (w : String) : Bool := w.data.any (fun c => !c.isAlpha)

/-- The paired count/total tables built by `train`. -/
structure CountState : Type where
  counts : Transitions Nat
  totals : List (String × Nat)

/-- `counts[context][sym]++; totals[context] = (totals[context] || 0) + 1`
with JS-style creation of missing entries. -/
def bump (st : CountState) (context sym : String) : CountState :=
  let inner := (alGet st.counts context).getD []
  { counts := alSet st.counts context (alSet inner sym ((alGet inner sym).getD 0 + 1))
    totals := alSet st.totals context ((alGet st.totals context).getD 0 + 1) }

/-- Character-transition counting for one syllable. -/
def countSyllableChars (st : CountState) (syl : String) : CountState :=
  (windows3 (tokenizeSyl syl)).foldl (fun s cw => bump s cw.1 cw.2) st

/-- Character-transition counting for one word's syllables. -/
def countWordChars (st : CountState) (sylls : List String) : CountState :=
  sylls.foldl countSyllableChars st

/-- Syllable-bigram counting for one word:
`['^^', ...syllables, '$$']` adjacent pairs. -/
def countWordSylls (st : CountState) (sylls : List String) : CountState :=
  (adjacentPairs ("^^" :: (sylls ++ ["$$"]))).foldl (fun s pr => bump s pr.1 pr.2) st

/-- Both tables' counting state. -/
structure TrainState : Type where
  charSt : CountState
  sylSt : CountState

/-- One iteration of the training loop: skip non-alphabetic words, otherwise
syllabify the lowercased word (external syllabifier collaborator) and count. -/
def trainWord (syllabify : String → List String) (st : TrainState) (word : String) :
    TrainState :=
  if hasNonAlpha word then st
  else
    let sylls := syllabify word.toLower
    { charSt := countWordChars st.charSt sylls
      sylSt := countWordSylls st.sylSt sylls }

def trainCounts (syllabify : String → List String) (words : List String) : TrainState :=
  words.foldl (trainWord syllabify) ⟨⟨[], []⟩, ⟨[], []⟩⟩

/-- The inner loop of `countsToLogProbs` for one context: normalize each
count to a probability by the context's total, take the natural log, and drop
entries whose log-probability falls below the fixed floor
`minTransitionLogThreshold = -11`. -/
noncomputable def logProbEntry (totals : List (String × Nat)) (c : String)
    (inner : List (String × Nat)) : List (String × ℝ) :=
  inner.filterMap (fun nx =>
    let probability : ℝ := (nx.2 : ℝ) / (((alGet totals c).getD 0 : ℕ) : ℝ)
    let logProb : ℝ := Real.log probability
    if logProb < (-11 : ℝ) then none else some (nx.1, logProb))

/-- `countsToLogProbs`.  A context whose entries are all dropped remains
present with an empty inner table, as in the source. -/
noncomputable def countsToLogProbs (counts : Transitions Nat)
    (totals : List (String × Nat)) : Transitions ℝ :=
  counts.map (fun ctx => (ctx.1, logProbEntry totals ctx.1 ctx.2))

/-- The trained model: the two transition tables. -/
structure PhonotacticModel : Type where
  charTransitions : Transitions ℝ
  syllableBigrams : Transitions ℝ

/-- `train(words)`. -/
noncomputable def train (syllabify : String → List String) (words : List String) :
    PhonotacticModel :=
  let st := trainCounts syllabify words
  { charTransitions := countsToLogProbs st.charSt.counts st.charSt.totals
    syllableBigrams := countsToLogProbs st.sylSt.counts st.sylSt.totals }

/-! ### C9: every stored log-probability lies in [-11, 0] -/

/-- Sum of the counts stored in one context's inner table. -/
def sumCounts (l : List (String × Nat)) : Nat := (l.map Prod.snd).sum

theorem alSet_keys {κ α : Type} [DecidableEq κ] :
    ∀ (l : List (κ × α)) (k : κ) (v : α),
      (alSet l k v).map Prod.fst =
        if k ∈ l.map Prod.fst then l.map Prod.fst else l.map Prod.fst ++ [k] := by
  intro l
  induction l with
  | nil => intro k v; simp [alSet]
  | cons hd tl ih =>
    intro k v
    obtain ⟨k0, w⟩ := hd
    by_cases hk : k0 = k
    · subst hk
      simp [alSet]
    · have hne : k ≠ k0 := fun h => hk h.symm
      simp only [alSet, if_neg hk, List.map_cons]
      rw [ih k v]
      by_cases hmem : k ∈ tl.map Prod.fst
      · rw [if_pos hmem, if_pos (by simp [hmem])]
      · rw [if_neg hmem, if_neg (by simp [List.mem_cons, hmem, hne])]
        simp

theorem alSet_keys_nodup {κ α : Type} [DecidableEq κ] {l : List (κ × α)} {k : κ} {v : α}
    (h : (l.map Prod.fst).Nodup) : ((alSet l k v).map Prod.fst).Nodup := by
  rw [alSet_keys]
  by_cases hmem : k ∈ l.map Prod.fst
  · rwa [if_pos hmem]
  · rw [if_neg hmem]
    simp [List.nodup_append, h, hmem]

theorem alSet_mem {κ α : Type} [DecidableEq κ] :
    ∀ {l : List (κ × α)} {k : κ} {v : α} {p : κ × α},
      p ∈ alSet l k v → p = (k, v) ∨ p ∈ l := by
  intro l
  induction l with
  | nil =>
    intro k v p h
    simp [alSet] at h
    exact Or.inl h
  | cons hd tl ih =>
    intro k v p h
    obtain ⟨k0, w⟩ := hd
    by_cases hk : k0 = k
    · subst hk
      simp only [alSet, if_pos rfl] at h
      rcases List.mem_cons.mp h with h | h
      · exact Or.inl h
      · exact Or.inr (List.mem_cons_of_mem _ h)
    · simp only [alSet, if_neg hk] at h
      rcases List.mem_cons.mp h with h | h
      · exact Or.inr (by simp [h])
      · rcases ih h with h | h
        · exact Or.inl h
        · exact Or.inr (List.mem_cons_of_mem _ h)

theorem sumCounts_alSet_bump :
    ∀ (l : List (String × Nat)) (k : String),
      sumCounts (alSet l k ((alGet l k).getD 0 + 1)) = sumCounts l + 1 := by
  intro l
  induction l with
  | nil => intro k; simp [alSet, alGet, sumCounts]
  | cons hd tl ih =>
    intro k
    obtain ⟨k0, v⟩ := hd
    by_cases hk : k0 = k
    · subst hk
      simp [alSet, alGet, sumCounts]
      omega
    · simp only [alSet, alGet, if_neg hk, sumCounts, List.map_cons, List.sum_cons]
      have h1 := ih k
      simp only [sumCounts] at h1
      omega

theorem mem_le_sumCounts :
    ∀ {l : List (String × Nat)} {q : String × Nat}, q ∈ l → q.2 ≤ sumCounts l := by
  intro l
  induction l with
  | nil => intro q h; simp at h
  | cons hd tl ih =>
    intro q h
    simp only [sumCounts, List.map_cons, List.sum_cons]
    rcases List.mem_cons.mp h with h | h
    · rw [h]
      omega
    · have h2 := ih h
      simp only [sumCounts] at h2
      omega

/-- Invariants maintained by the counting loops: unique keys at both levels,
each total equal to the sum of its context's counts, and every stored count
at least 1. -/
structure CountInv (st : CountState) : Prop where
  nodupOuter : (st.counts.map Prod.fst).Nodup
  nodupInner : ∀ p ∈ st.counts, ((p.2 : List (String × Nat)).map Prod.fst).Nodup
  totalsEq : ∀ c, (alGet st.totals c).getD 0 = sumCounts ((alGet st.counts c).getD [])
  countsPos : ∀ p ∈ st.counts, ∀ q ∈ (p.2 : List (String × Nat)), 1 ≤ q.2

theorem countInv_empty : CountInv ⟨[], []⟩ := by
  constructor
  · simp
  · intro p hp; simp at hp
  · intro c; simp [alGet, sumCounts]
  · intro p hp; simp at hp

theorem countInv_bump {st : CountState} (h : CountInv st) (context sym : String) :
    CountInv (bump st context sym) := by
  obtain ⟨hout, hin, htot, hpos⟩ := h
  constructor
  · exact alSet_keys_nodup hout
  · intro p hp
    simp only [bump] at hp
    rcases alSet_mem hp with hp | hp
    · have hinn : (((alGet st.counts context).getD []).map Prod.fst).Nodup := by
        cases hg : alGet st.counts context with
        | none => simp
        | some inn =>
          simpa using hin (context, inn) (alGet_mem hg)
      rw [hp]
      exact alSet_keys_nodup hinn
    · exact hin p hp
  · intro c
    by_cases hc : c = context
    · subst hc
      simp only [bump]
      rw [alGet_alSet, if_pos rfl, alGet_alSet, if_pos rfl]
      simp only [Option.getD_some]
      rw [sumCounts_alSet_bump]
      rw [htot c]
    · simp only [bump]
      rw [alGet_alSet, if_neg hc, alGet_alSet, if_neg hc]
      exact htot c
  · intro p hp q hq
    simp only [bump] at hp
    rcases alSet_mem hp with hp | hp
    · rw [hp] at hq
      rcases alSet_mem hq with hq | hq
      · rw [hq]
        exact Nat.le_add_left 1 _
      · cases hg : alGet st.counts context with
        | none => rw [hg] at hq; simp at hq
        | some inn =>
          rw [hg] at hq
          exact hpos (context, inn) (alGet_mem hg) q hq
    · exact hpos p hp q hq

theorem countInv_foldl :
    ∀ (l : List (String × String)) (st : CountState), CountInv st →
      CountInv (l.foldl (fun s pr => bump s pr.1 pr.2) st) := by
  intro l
  induction l with
  | nil => intro st h; simpa using h
  | cons hd tl ih =>
    intro st h
    simp only [List.foldl_cons]
    exact ih _ (countInv_bump h hd.1 hd.2)

theorem countInv_countSyllableChars {st : CountState} (h : CountInv st) (syl : String) :
    CountInv (countSyllableChars st syl) :=
  countInv_foldl _ st h

theorem countInv_countWordChars :
    ∀ (sylls : List String) (st : CountState), CountInv st →
      CountInv (countWordChars st sylls) := by
  intro sylls
  induction sylls with
  | nil => intro st h; simpa [countWordChars] using h
  | cons hd tl ih =>
    intro st h
    simp only [countWordChars, List.foldl_cons]
    exact ih _ (countInv_countSyllableChars h hd)

theorem countInv_countWordSylls {st : CountState} (h : CountInv st) (sylls : List String) :
    CountInv (countWordSylls st sylls) :=
  countInv_foldl _ st h

theorem countInv_trainWords (syllabify : String → List String) :
    ∀ (words : List String) (st : TrainState), CountInv st.charSt → CountInv st.sylSt →
      CountInv (words.foldl (trainWord syllabify) st).charSt ∧
        CountInv (words.foldl (trainWord syllabify) st).sylSt := by
  intro words
  induction words with
  | nil => intro st h1 h2; exact ⟨h1, h2⟩
  | cons hd tl ih =>
    intro st h1 h2
    simp only [List.foldl_cons]
    by_cases hna : hasNonAlpha hd
    · simp only [trainWord, if_pos hna]
      exact ih st h1 h2
    · simp only [trainWord, if_neg hna]
      exact ih _ (countInv_countWordChars _ _ h1) (countInv_countWordSylls h2 _)

theorem countInv_trainCounts (syllabify : String → List String) (words : List String) :
    CountInv (trainCounts syllabify words).charSt ∧
      CountInv (trainCounts syllabify words).sylSt :=
  countInv_trainWords syllabify words ⟨⟨[], []⟩, ⟨[], []⟩⟩ countInv_empty countInv_empty

theorem alGet_map_entry {α β : Type} (g : String → α → β) :
    ∀ (l : List (String × α)) (k : String),
      alGet (l.map (fun e => (e.1, g e.1 e.2))) k = (alGet l k).map (g k) := by
  intro l
  induction l with
  | nil => intro k; simp [alGet]
  | cons hd tl ih =>
    intro k
    obtain ⟨k0, a⟩ := hd
    by_cases hk : k0 = k
    · subst hk
      simp [alGet]
    · simp [alGet, hk, ih]

theorem countsToLogProbs_bounded {st : CountState} (h : CountInv st)
    (ctx sym : String) (v : ℝ)
    (hget : alGet2 (countsToLogProbs st.counts st.totals) ctx sym = some v) :
    (-11 : ℝ) ≤ v ∧ v ≤ 0 := by
  obtain ⟨hout, hin, htot, hpos⟩ := h
  unfold countsToLogProbs alGet2 at hget
  rw [alGet_map_entry (logProbEntry st.totals)] at hget
  cases hg : alGet st.counts ctx with
  | none =>
    rw [hg] at hget
    exact absurd (hget : (none : Option ℝ) = some v) (by simp)
  | some inner =>
    rw [hg] at hget
    have hget2 : alGet (logProbEntry st.totals ctx inner) sym = some v := hget
    have hmem := alGet_mem hget2
    simp only [logProbEntry, List.mem_filterMap] at hmem
    obtain ⟨nx, hnx, hfx⟩ := hmem
    by_cases hcut : Real.log ((nx.2 : ℝ) / (((alGet st.totals ctx).getD 0 : ℕ) : ℝ)) < -11
    · rw [if_pos hcut] at hfx
      exact absurd hfx (by simp)
    · rw [if_neg hcut] at hfx
      have hfx2 := hfx
      injection hfx2 with hfx3
      have hv : v = Real.log ((nx.2 : ℝ) / (((alGet st.totals ctx).getD 0 : ℕ) : ℝ)) := by
        have := congrArg Prod.snd hfx3
        simpa using this.symm
      constructor
      · rw [hv]
        exact le_of_not_lt hcut
      · rw [hv]
        apply Real.log_nonpos
        · positivity
        · have hn1 : 1 ≤ nx.2 := hpos (ctx, inner) (alGet_mem hg) nx hnx
          have hns : nx.2 ≤ sumCounts inner := mem_le_sumCounts hnx
          have htoteq : (alGet st.totals ctx).getD 0 = sumCounts inner := by
            rw [htot ctx, hg]
            simp
          rw [htoteq]
          have hpos2 : (0 : ℝ) < ((sumCounts inner : ℕ) : ℝ) := by
            have : 1 ≤ sumCounts inner := le_trans hn1 hns
            exact_mod_cast Nat.lt_of_lt_of_le Nat.zero_lt_one this
          rw [div_le_one hpos2]
          exact_mod_cast hns

/-- C9: after training, every log-probability stored in either transition
table is the natural log of a probability, hence at most 0, and at least the
fixed floor -11 (rarer entries are discarded during construction). -/
theorem train_logProbs_bounded (syllabify : String → List String) (words : List String)
    (ctx sym : String) (v : ℝ) :
    (alGet2 (train syllabify words).charTransitions ctx sym = some v →
      (-11 : ℝ) ≤ v ∧ v ≤ 0) ∧
    (alGet2 (train syllabify words).syllableBigrams ctx sym = some v →
      (-11 : ℝ) ≤ v ∧ v ≤ 0) := by
  have hinv := countInv_trainCounts syllabify words
  exact ⟨fun hg => countsToLogProbs_bounded hinv.1 ctx sym v hg,
    fun hg => countsToLogProbs_bounded hinv.2 ctx sym v hg⟩

/-- Trivial syllabifier used by the phonotactic witnesses (a one-syllable
word). -/
def syllOne : String → List String := fun w => [w]

theorem logProbEntry_singleton_self (totals : List (String × Nat)) (c s : String)
    (hc : (alGet totals c).getD 0 = 1) :
    logProbEntry totals c [(s, 1)] = [(s, 0)] := by
  unfold logProbEntry
  rw [hc]
  simp only [List.filterMap_cons, List.filterMap_nil]
  norm_num [Real.log_one]

theorem train_logProbs_bounded_witness :
    alGet2 (train syllOne ["aa"]).charTransitions "^^" "a" = some 0 ∧
    ((-11 : ℝ) ≤ 0 ∧ (0 : ℝ) ≤ 0) := by
  have htl : "aa".toLower = "aa" := by
    rw [show "aa".toLower = String.map Char.toLower "aa" from rfl, String.map_eq]
    decide
  have hcounts : (trainCounts syllOne ["aa"]).charSt.counts =
      [("^^", [("a", 1)]), ("^a", [("a", 1)]), ("aa", [("$", 1)]), ("a$", [("$", 1)])] := by
    show (trainWord syllOne ⟨⟨[], []⟩, ⟨[], []⟩⟩ "aa").charSt.counts = _
    unfold trainWord
    rw [if_neg (by decide : ¬(hasNonAlpha "aa" = true))]
    rw [htl]
    rfl
  have htotals : (trainCounts syllOne ["aa"]).charSt.totals =
      [("^^", 1), ("^a", 1), ("aa", 1), ("a$", 1)] := by
    show (trainWord syllOne ⟨⟨[], []⟩, ⟨[], []⟩⟩ "aa").charSt.totals = _
    unfold trainWord
    rw [if_neg (by decide : ¬(hasNonAlpha "aa" = true))]
    rw [htl]
    rfl
  have hget : alGet2 (train syllOne ["aa"]).charTransitions "^^" "a" = some 0 := by
    show alGet2 (countsToLogProbs (trainCounts syllOne ["aa"]).charSt.counts
      (trainCounts syllOne ["aa"]).charSt.totals) "^^" "a" = some 0
    unfold countsToLogProbs alGet2
    rw [alGet_map_entry (logProbEntry (trainCounts syllOne ["aa"]).charSt.totals)]
    rw [hcounts]
    rw [show alGet [("^^", [("a", (1 : Nat))]), ("^a", [("a", 1)]), ("aa", [("$", 1)]),
      ("a$", [("$", 1)])] "^^" = some [("a", (1 : Nat))] from rfl]
    show alGet (logProbEntry (trainCounts syllOne ["aa"]).charSt.totals "^^"
      [("a", (1 : Nat))]) "a" = some 0
    rw [logProbEntry_singleton_self _ _ _ (by rw [htotals]; rfl)]
    rfl
  exact ⟨hget, (train_logProbs_bounded syllOne ["aa"] "^^" "a" 0).1 hget⟩

/-! ### Exhaustive generation (generateViableWords / countViableWords) -/

/-- Stack frame of the exhaustive DFS:
`[currentSyllable, currentLength, hasCenter, syllableList]`. -/
structure GenFrame : Type where
  cur : String
  len : Nat
  hasCenter : Bool
  sylls : List String

/-- Membership in `poolSet = new Set(pool.split(''))` after `poolSet.add(center)`. -/
def poolHas (pool : String) (center : Char) (c : Char) : Bool :=
  c ∈ pool.data || c == center

/-- `isValidSyllable` inside `generateViableWords`: `$$` passes, otherwise
every character must be in the pool set. -/
def isValidSyllableGen (pool : String) (center : Char) (s : String) : Bool :=
  s == "$$" || s.data.all (poolHas pool center)

/-- Pre-computed `validTransitions`: keep a context that is `^^` or valid,
with its valid next syllables; contexts with no valid next are not added. -/
def validTransitionsOf {α : Type} (bigrams : Transitions α) (pool : String) (center : Char) :
    List (String × List String) :=
  bigrams.filterMap (fun e =>
    if e.1 != "^^" && !(isValidSyllableGen pool center e.1) then none
    else
      let validNext := (e.2.map Prod.fst).filter (isValidSyllableGen pool center)
      if validNext.isEmpty then none else some (e.1, validNext))

/-- The `maxAdjacentIdenticalSyllables = 2` guard: at least two syllables so
far and the last two both equal to `next`. -/
def repeatBlocked (sylls : List String) (next : String) : Bool :=
  decide (2 ≤ sylls.length) &&
    (sylls.get? (sylls.length - 1) == some next) &&
    (sylls.get? (sylls.length - 2) == some next)

/-- Processing one popped frame: the words yielded (at `$$` candidates
passing the minimum-length and center checks) and the frames pushed, both in
candidate order. -/
def genExpand (vt : List (String × List String)) (center : Char) (minLen maxLen : Nat)
    (f : GenFrame) : List String × List GenFrame :=
  match alGet vt f.cur with
  | none => ([], [])
  | some candidates =>
    (candidates.filterMap (fun next =>
      if next == "$$" then
        if decide (minLen ≤ f.len) && f.hasCenter then some (String.join f.sylls) else none
      else none),
    candidates.filterMap (fun next =>
      if next == "$$" then none
      else if decide (maxLen < f.len + next.length) then none
      else if repeatBlocked f.sylls next then none
      else some ⟨next, f.len + next.length, f.hasCenter || next.data.contains center,
        f.sylls ++ [next]⟩))

/-- The stack loop; `fuel` bounds the number of pops (all claims hold for
every fuel).  Pushed frames go on top of the remaining stack, reversed,
matching LIFO pops of a JS array used as a stack. -/
def genLoop (vt : List (String × List String)) (center : Char) (minLen maxLen : Nat) :
    Nat → List GenFrame → List String
  | 0, _ => []
  | _ + 1, [] => []
  | fuel + 1, f :: stack =>
    (genExpand vt center minLen maxLen f).1 ++
      genLoop vt center minLen maxLen fuel
        ((genExpand vt center minLen maxLen f).2.reverse ++ stack)

/-- `generateViableWords` materialized, starting from `['^^', 0, false, []]`. -/
def generateViableWords {α : Type} (bigrams : Transitions α) (pool : String) (center : Char)
    (minLen maxLen : Nat) (fuel : Nat) : List String :=
  genLoop (validTransitionsOf bigrams pool center) center minLen maxLen fuel
    [⟨"^^", 0, false, []⟩]

/-- The loop of `countViableWords`: iterate the generator, incrementing a
counter per yielded word. -/
def countLoop (vt : List (String × List String)) (center : Char) (minLen maxLen : Nat) :
    Nat → List GenFrame → Nat
  | 0, _ => 0
  | _ + 1, [] => 0
  | fuel + 1, f :: stack =>
    (genExpand vt center minLen maxLen f).1.length +
      countLoop vt center minLen maxLen fuel
        ((genExpand vt center minLen maxLen f).2.reverse ++ stack)

def countViableWords {α : Type} (bigrams : Transitions α) (pool : String) (center : Char)
    (minLen maxLen : Nat) (fuel : Nat) : Nat :=
  countLoop (validTransitionsOf bigrams pool center) center minLen maxLen fuel
    [⟨"^^", 0, false, []⟩]

theorem countLoop_eq_length (vt : List (String × List String)) (center : Char)
    (minLen maxLen : Nat) :
    ∀ (fuel : Nat) (stack : List GenFrame),
      countLoop vt center minLen maxLen fuel stack =
        (genLoop vt center minLen maxLen fuel stack).length := by
  intro fuel
  induction fuel with
  | zero => intro stack; rfl
  | succ n ih =>
    intro stack
    cases stack with
    | nil => rfl
    | cons f rest =>
      simp [countLoop, genLoop, ih]

/-- C2: `countViableWords` equals the length of the fully materialized
`generateViableWords` sequence, for every parameter combination (and every
fuel bound on the shared loop). -/
theorem countViableWords_eq_length {α : Type} (bigrams : Transitions α) (pool : String)
    (center : Char) (minLen maxLen fuel : Nat) :
    countViableWords bigrams pool center minLen maxLen fuel =
      (generateViableWords bigrams pool center minLen maxLen fuel).length :=
  countLoop_eq_length _ _ _ _ fuel _

/-! ### C3: soundness of the generated words -/

/-- No three consecutive identical syllables (the "tartar is allowed,
tartartar is not" rule, as a predicate on the generating sequence). -/
def noTriple : List String → Bool
  | a :: b :: c :: rest => !(a == b && b == c) && noTriple (b :: c :: rest)
  | _ => true

theorem repeatBlocked_cons {l : List String} {a x : String} (hl : 2 ≤ l.length) :
    repeatBlocked (a :: l) x = repeatBlocked l x := by
  unfold repeatBlocked
  have h1 : (a :: l).length = l.length + 1 := rfl
  have h2 : (a :: l).get? ((a :: l).length - 1) = l.get? (l.length - 1) := by
    rw [h1]
    have he : l.length + 1 - 1 = (l.length - 1) + 1 := by omega
    rw [he]
    rfl
  have h3 : (a :: l).get? ((a :: l).length - 2) = l.get? (l.length - 2) := by
    rw [h1]
    have he : l.length + 1 - 2 = (l.length - 2) + 1 := by omega
    rw [he]
    rfl
  rw [h2, h3]
  have h4 : decide (2 ≤ (a :: l).length) = true := by
    rw [h1]
    simp
    omega
  have h5 : decide (2 ≤ l.length) = true := by
    simp
    omega
  rw [h4, h5]

theorem noTriple_append :
    ∀ {l : List String} {x : String}, noTriple l = true → repeatBlocked l x = false →
      noTriple (l ++ [x]) = true := by
  intro l
  induction l with
  | nil => intro x _ _; rfl
  | cons a tl ih =>
    intro x h hb
    cases tl with
    | nil => rfl
    | cons b tl2 =>
      cases tl2 with
      | nil =>
        show noTriple [a, b, x] = true
        have hval : repeatBlocked [a, b] x = (true && (b == x) && (a == x)) := rfl
        rw [hval] at hb
        simp only [Bool.true_and, Bool.and_eq_false_iff, beq_eq_false_iff_ne] at hb
        rw [show noTriple [a, b, x] = (!(a == b && b == x) && true) from rfl]
        simp only [Bool.and_true, Bool.not_eq_true', Bool.and_eq_false_iff,
          beq_eq_false_iff_ne]
        rcases hb with hb | hb
        · exact Or.inr hb
        · by_cases hbx : b = x
          · exact Or.inl (fun hab => hb (hab.trans hbx))
          · exact Or.inr hbx
      | cons c tl3 =>
        show noTriple (a :: b :: c :: (tl3 ++ [x])) = true
        have hlen : 2 ≤ (b :: c :: tl3).length := by simp
        rw [repeatBlocked_cons hlen] at hb
        simp only [noTriple, Bool.and_eq_true] at h ⊢
        exact ⟨h.1, ih h.2 hb⟩

theorem length_join_append (l : List String) (s : String) :
    (String.join (l ++ [s])).length = (String.join l).length + s.length := by
  show (String.join (l ++ [s])).data.length = (String.join l).data.length + s.data.length
  rw [String.data_join, String.data_join]
  simp

theorem mem_data_join {l : List String} {s : String} (hs : s ∈ l) {c : Char}
    (hc : c ∈ s.data) : c ∈ (String.join l).data := by
  rw [String.data_join]
  exact List.mem_flatten.mpr ⟨s.data, List.mem_map_of_mem _ hs, hc⟩

theorem data_join_mem {l : List String} {c : Char} (hc : c ∈ (String.join l).data) :
    ∃ s ∈ l, c ∈ s.data := by
  rw [String.data_join] at hc
  obtain ⟨d, hd, hcd⟩ := List.mem_flatten.mp hc
  obtain ⟨s, hs, rfl⟩ := List.mem_map.mp hd
  exact ⟨s, hs, hcd⟩

/-- Invariant carried by every frame of the DFS stack. -/
def FrameOk (pool : String) (center : Char) (maxLen : Nat) (f : GenFrame) : Prop :=
  f.len = (String.join f.sylls).length ∧
  f.len ≤ maxLen ∧
  (f.hasCenter = true → center ∈ (String.join f.sylls).data) ∧
  (∀ s ∈ f.sylls, ∀ c ∈ s.data, poolHas pool center c = true) ∧
  noTriple f.sylls = true

/-- What C3 claims of every yielded word. -/
def WordOk (pool : String) (center : Char) (minLen maxLen : Nat) (w : String) : Prop :=
  center ∈ w.data ∧ (∀ c ∈ w.data, poolHas pool center c = true) ∧
  minLen ≤ w.length ∧ w.length ≤ maxLen ∧
  ∃ sylls, w = String.join sylls ∧ noTriple sylls = true

theorem validTransitionsOf_valid {α : Type} (bigrams : Transitions α) (pool : String)
    (center : Char) {ctx : String} {cands : List String}
    (h : alGet (validTransitionsOf bigrams pool center) ctx = some cands) :
    ∀ n ∈ cands, isValidSyllableGen pool center n = true := by
  have hmem := alGet_mem h
  unfold validTransitionsOf at hmem
  rw [List.mem_filterMap] at hmem
  obtain ⟨e, he, hfe⟩ := hmem
  cases hcond : (e.1 != "^^" && !(isValidSyllableGen pool center e.1)) with
  | true =>
    rw [if_pos hcond] at hfe
    exact absurd hfe (by simp)
  | false =>
    rw [if_neg (by simp [hcond])] at hfe
    cases hvn : ((e.2.map Prod.fst).filter (isValidSyllableGen pool center)).isEmpty with
    | true =>
      rw [if_pos hvn] at hfe
      exact absurd hfe (by simp)
    | false =>
      rw [if_neg (by simp [hvn])] at hfe
      injection hfe with hfe
      have hsnd := congrArg Prod.snd hfe
      simp only at hsnd
      intro n hn
      rw [← hsnd] at hn
      exact (List.mem_filter.mp hn).2

theorem genExpand_sound (pool : String) (center : Char) (minLen maxLen : Nat)
    (vt : List (String × List String))
    (hvt : ∀ ctx cands, alGet vt ctx = some cands →
      ∀ n ∈ cands, isValidSyllableGen pool center n = true)
    {f : GenFrame} (hf : FrameOk pool center maxLen f) :
    (∀ w ∈ (genExpand vt center minLen maxLen f).1, WordOk pool center minLen maxLen w) ∧
    (∀ f2 ∈ (genExpand vt center minLen maxLen f).2, FrameOk pool center maxLen f2) := by
  obtain ⟨hlen, hmax, hcen, hpool, hnt⟩ := hf
  unfold genExpand
  cases hget : alGet vt f.cur with
  | none => exact ⟨fun w hw => absurd hw (by simp), fun f2 hf2 => absurd hf2 (by simp)⟩
  | some candidates =>
    have hcand := hvt f.cur candidates hget
    constructor
    · intro w hw
      simp only [List.mem_filterMap] at hw
      obtain ⟨next, hnext, hfx⟩ := hw
      by_cases hdol : (next == "$$") = true
      · rw [if_pos hdol] at hfx
        by_cases hok : (decide (minLen ≤ f.len) && f.hasCenter) = true
        · rw [if_pos hok] at hfx
          injection hfx with hfx
          subst hfx
          simp only [Bool.and_eq_true, decide_eq_true_eq] at hok
          refine ⟨hcen hok.2, ?_, ?_, ?_, f.sylls, rfl, hnt⟩
          · intro c hcw
            obtain ⟨s, hs, hcs⟩ := data_join_mem hcw
            exact hpool s hs c hcs
          · rw [← hlen]; exact hok.1
          · rw [← hlen]; exact hmax
        · rw [if_neg hok] at hfx
          exact absurd hfx (by simp)
      · rw [if_neg hdol] at hfx
        exact absurd hfx (by simp)
    · intro f2 hf2
      simp only [List.mem_filterMap] at hf2
      obtain ⟨next, hnext, hfx⟩ := hf2
      by_cases hdol : (next == "$$") = true
      · rw [if_pos hdol] at hfx
        exact absurd hfx (by simp)
      · rw [if_neg hdol] at hfx
        by_cases hover : (decide (maxLen < f.len + next.length)) = true
        · rw [if_pos hover] at hfx
          exact absurd hfx (by simp)
        · rw [if_neg hover] at hfx
          by_cases hrep : repeatBlocked f.sylls next = true
          · rw [if_pos hrep] at hfx
            exact absurd hfx (by simp)
          · rw [if_neg hrep] at hfx
            injection hfx with hfx
            subst hfx
            have hnextpool : ∀ c ∈ next.data, poolHas pool center c = true := by
              have hv := hcand next hnext
              unfold isValidSyllableGen at hv
              rw [Bool.or_eq_true] at hv
              rcases hv with hv | hv
              · exact absurd hv hdol
              · intro c hc
                exact List.all_eq_true.mp hv c hc
            refine ⟨?_, ?_, ?_, ?_, ?_⟩
            · show f.len + next.length = (String.join (f.sylls ++ [next])).length
              rw [length_join_append, ← hlen]
            · show f.len + next.length ≤ maxLen
              simp only [decide_eq_true_eq] at hover
              omega
            · show (f.hasCenter || next.data.contains center) = true →
                center ∈ (String.join (f.sylls ++ [next])).data
              intro hc
              rw [Bool.or_eq_true] at hc
              rcases hc with hc | hc
              · obtain hcd := hcen hc
                obtain ⟨s, hs, hcs⟩ := data_join_mem hcd
                exact mem_data_join (List.mem_append_left _ hs) hcs
              · have hcm : center ∈ next.data := by
                  obtain ⟨b, hbm, hbeq⟩ := List.contains_iff_exists_mem_beq.mp hc
                  rw [eq_of_beq hbeq]
                  exact hbm
                exact mem_data_join (List.mem_append_right _ (List.mem_singleton.mpr rfl)) hcm
            · show ∀ s ∈ f.sylls ++ [next], ∀ c ∈ s.data, poolHas pool center c = true
              intro s hs c hc
              rcases List.mem_append.mp hs with hs | hs
              · exact hpool s hs c hc
              · rw [List.mem_singleton.mp hs]  at hc
                exact hnextpool c hc
            · show noTriple (f.sylls ++ [next]) = true
              exact noTriple_append hnt (Bool.not_eq_true _ ▸ hrep)

theorem genLoop_sound (pool : String) (center : Char) (minLen maxLen : Nat)
    (vt : List (String × List String))
    (hvt : ∀ ctx cands, alGet vt ctx = some cands →
      ∀ n ∈ cands, isValidSyllableGen pool center n = true) :
    ∀ (fuel : Nat) (stack : List GenFrame),
      (∀ f ∈ stack, FrameOk pool center maxLen f) →
      ∀ w ∈ genLoop vt center minLen maxLen fuel stack,
        WordOk pool center minLen maxLen w := by
  intro fuel
  induction fuel with
  | zero => intro stack _ w hw; exact absurd hw (by simp [genLoop])
  | succ n ih =>
    intro stack hstack w hw
    cases stack with
    | nil => exact absurd hw (by simp [genLoop])
    | cons f rest =>
      have hfok := hstack f (List.mem_cons_self _ _)
      have hexp := genExpand_sound pool center minLen maxLen vt hvt hfok
      simp only [genLoop, List.mem_append] at hw
      rcases hw with hw | hw
      · exact hexp.1 w hw
      · apply ih _ _ w hw
        intro f2 hf2
        rcases List.mem_append.mp hf2 with hf2 | hf2
        · exact hexp.2 f2 (List.mem_reverse.mp hf2)
        · exact hstack f2 (List.mem_cons_of_mem _ hf2)

/-- The yields of one popped frame as generating syllable sequences: at each
`$$` candidate passing the checks, the frame's syllable list (the sequence
the source joins with `join('')`). -/
def genExpandSylls (vt : List (String × List String)) (center : Char) (minLen maxLen : Nat)
    (f : GenFrame) : List (List String) :=
  match alGet vt f.cur with
  | none => []
  | some candidates =>
    candidates.filterMap (fun next =>
      if next == "$$" then
        if decide (minLen ≤ f.len) && f.hasCenter then some f.sylls else none
      else none)

/-- The same DFS loop as `genLoop`, yielding the generating syllable
sequences instead of the joined words. -/
def genSyllsLoop (vt : List (String × List String)) (center : Char) (minLen maxLen : Nat) :
    Nat → List GenFrame → List (List String)
  | 0, _ => []
  | _ + 1, [] => []
  | fuel + 1, f :: stack =>
    genExpandSylls vt center minLen maxLen f ++
      genSyllsLoop vt center minLen maxLen fuel
        ((genExpand vt center minLen maxLen f).2.reverse ++ stack)

/-- The generating syllable sequences behind `generateViableWords`. -/
def generateViableSylls {α : Type} (bigrams : Transitions α) (pool : String) (center : Char)
    (minLen maxLen : Nat) (fuel : Nat) : List (List String) :=
  genSyllsLoop (validTransitionsOf bigrams pool center) center minLen maxLen fuel
    [⟨"^^", 0, false, []⟩]

theorem genExpand_fst_eq (vt : List (String × List String)) (center : Char)
    (minLen maxLen : Nat) (f : GenFrame) :
    (genExpand vt center minLen maxLen f).1 =
      (genExpandSylls vt center minLen maxLen f).map String.join := by
  unfold genExpand genExpandSylls
  cases alGet vt f.cur with
  | none => rfl
  | some candidates =>
    simp only
    rw [List.map_filterMap]
    congr 1
    funext next
    by_cases h1 : (next == "$$") = true
    · rw [if_pos h1, if_pos h1]
      by_cases h2 : (decide (minLen ≤ f.len) && f.hasCenter) = true
      · rw [if_pos h2, if_pos h2]
        rfl
      · rw [if_neg h2, if_neg h2]
        rfl
    · rw [if_neg h1, if_neg h1]
      rfl

theorem genLoop_eq_map_join (vt : List (String × List String)) (center : Char)
    (minLen maxLen : Nat) :
    ∀ (fuel : Nat) (stack : List GenFrame),
      genLoop vt center minLen maxLen fuel stack =
        (genSyllsLoop vt center minLen maxLen fuel stack).map String.join := by
  intro fuel
  induction fuel with
  | zero => intro stack; rfl
  | succ n ih =>
    intro stack
    cases stack with
    | nil => rfl
    | cons f rest =>
      simp only [genLoop, genSyllsLoop, List.map_append]
      rw [ih, genExpand_fst_eq]

theorem genExpandSylls_sound {pool : String} {center : Char} {minLen maxLen : Nat}
    {vt : List (String × List String)} {f : GenFrame}
    (hf : FrameOk pool center maxLen f) :
    ∀ sylls ∈ genExpandSylls vt center minLen maxLen f, noTriple sylls = true := by
  unfold genExpandSylls
  cases alGet vt f.cur with
  | none => intro s hs; simp at hs
  | some candidates =>
    intro s hs
    simp only [List.mem_filterMap] at hs
    obtain ⟨next, _, hfx⟩ := hs
    by_cases h1 : (next == "$$") = true
    · rw [if_pos h1] at hfx
      by_cases h2 : (decide (minLen ≤ f.len) && f.hasCenter) = true
      · rw [if_pos h2] at hfx
        injection hfx with hfx
        rw [← hfx]
        exact hf.2.2.2.2
      · rw [if_neg h2] at hfx
        exact absurd hfx (by simp)
    · rw [if_neg h1] at hfx
      exact absurd hfx (by simp)

theorem genSyllsLoop_sound (pool : String) (center : Char) (minLen maxLen : Nat)
    (vt : List (String × List String))
    (hvt : ∀ ctx cands, alGet vt ctx = some cands →
      ∀ n ∈ cands, isValidSyllableGen pool center n = true) :
    ∀ (fuel : Nat) (stack : List GenFrame),
      (∀ f ∈ stack, FrameOk pool center maxLen f) →
      ∀ sylls ∈ genSyllsLoop vt center minLen maxLen fuel stack, noTriple sylls = true := by
  intro fuel
  induction fuel with
  | zero => intro stack _ s hs; exact absurd hs (by simp [genSyllsLoop])
  | succ n ih =>
    intro stack hstack s hs
    cases stack with
    | nil => exact absurd hs (by simp [genSyllsLoop])
    | cons f rest =>
      have hfok := hstack f (List.mem_cons_self _ _)
      simp only [genSyllsLoop, List.mem_append] at hs
      rcases hs with hs | hs
      · exact genExpandSylls_sound hfok s hs
      · apply ih _ _ s hs
        intro f2 hf2
        rcases List.mem_append.mp hf2 with hf2 | hf2
        · exact (genExpand_sound pool center minLen maxLen vt hvt hfok).2 f2
            (List.mem_reverse.mp hf2)
        · exact hstack f2 (List.mem_cons_of_mem _ hf2)

theorem initialFrameOk (pool : String) (center : Char) (maxLen : Nat) :
    FrameOk pool center maxLen ⟨"^^", 0, false, []⟩ := by
  refine ⟨rfl, Nat.zero_le _, ?_, ?_, rfl⟩
  · intro h; simp at h
  · intro s hs; simp at hs

/-- C3: every word yielded by `generateViableWords` contains the center
letter, uses only characters of `pool ∪ {center}`, and has length in
`[minLen, maxLen]`; moreover the yielded words are exactly the joins of the
generating syllable sequences produced by the same DFS, and none of those
generating sequences contains three or more consecutive identical
syllables. -/
theorem generateViableWords_sound {α : Type} (bigrams : Transitions α) (pool : String)
    (center : Char) (minLen maxLen fuel : Nat) :
    (∀ w ∈ generateViableWords bigrams pool center minLen maxLen fuel,
      center ∈ w.data ∧ (∀ c ∈ w.data, c ∈ pool.data ∨ c = center) ∧
      minLen ≤ w.length ∧ w.length ≤ maxLen) ∧
    generateViableWords bigrams pool center minLen maxLen fuel =
      (generateViableSylls bigrams pool center minLen maxLen fuel).map String.join ∧
    (∀ sylls ∈ generateViableSylls bigrams pool center minLen maxLen fuel,
      noTriple sylls = true) := by
  refine ⟨?_, ?_, ?_⟩
  · intro w hw
    have hok : WordOk pool center minLen maxLen w := by
      apply genLoop_sound pool center minLen maxLen (validTransitionsOf bigrams pool center)
        (fun ctx cands h => validTransitionsOf_valid bigrams pool center h) fuel _ _ w hw
      intro f hf
      rw [List.mem_singleton.mp hf]
      exact initialFrameOk pool center maxLen
    obtain ⟨h1, h2, h3, h4, _⟩ := hok
    refine ⟨h1, ?_, h3, h4⟩
    intro c hc
    have hp := h2 c hc
    unfold poolHas at hp
    rw [Bool.or_eq_true] at hp
    rcases hp with h | h
    · exact Or.inl (by simpa using h)
    · exact Or.inr (by simpa using h)
  · exact genLoop_eq_map_join _ _ _ _ fuel _
  · intro sylls hs
    apply genSyllsLoop_sound pool center minLen maxLen (validTransitionsOf bigrams pool center)
      (fun ctx cands h => validTransitionsOf_valid bigrams pool center h) fuel _ _ sylls hs
    intro f hf
    rw [List.mem_singleton.mp hf]
    exact initialFrameOk pool center maxLen

theorem generateViableWords_sound_witness :
    "ta" ∈ generateViableWords [("^^", [("ta", (0 : Nat))]), ("ta", [("ta", 0), ("$$", 0)])]
      "a" 't' 2 8 20 ∧
    ('t' ∈ "ta".data ∧ 2 ≤ "ta".length ∧ "ta".length ≤ 8) ∧
    ["ta"] ∈ generateViableSylls [("^^", [("ta", (0 : Nat))]), ("ta", [("ta", 0), ("$$", 0)])]
      "a" 't' 2 8 20 ∧
    noTriple ["ta"] = true := by
  have hmem : "ta" ∈ generateViableWords
      [("^^", [("ta", (0 : Nat))]), ("ta", [("ta", 0), ("$$", 0)])] "a" 't' 2 8 20 := by
    decide
  have hsmem : ["ta"] ∈ generateViableSylls
      [("^^", [("ta", (0 : Nat))]), ("ta", [("ta", 0), ("$$", 0)])] "a" 't' 2 8 20 := by
    decide
  have h := generateViableWords_sound [("^^", [("ta", (0 : Nat))]), ("ta", [("ta", 0), ("$$", 0)])]
    "a" 't' 2 8 20
  obtain ⟨hc, _, hl1, hl2⟩ := h.1 "ta" hmem
  exact ⟨hmem, ⟨hc, hl1, hl2⟩, hsmem, h.2.2 ["ta"] hsmem⟩

/-! ### filterModel (C5) -/

/-- `context.replace(/\^\^/g, '')`: remove every leftmost, non-overlapping
occurrence of the two-character `^^` marker. -/
def stripCarets : List Char → List Char
  | '^' :: '^' :: rest => stripCarets rest
  | c :: rest => c :: stripCarets rest
  | [] => []

/-- `isValid` inside `filterModel`: the full boundary markers pass, otherwise
every character must be in the pool (which here does not include a center). -/
def isValidFilter (pool : String) (s : String) : Bool :=
  s == "^^" || s == "$$" || s.data.all (fun c => c ∈ pool.data)

/-- The shared per-table loop of `filterModel` (the source repeats it once
per table): keep a context passing `keyOk`, restrict its inner table to
valid next symbols, and drop the context if nothing remains. -/
def filterTable {α : Type} (pool : String) (keyOk : String → Bool) (tbl : Transitions α) :
    Transitions α :=
  tbl.filterMap (fun e =>
    if !(keyOk e.1) then none
    else
      let filteredNext := e.2.filter (fun q => isValidFilter pool q.1)
      if filteredNext.isEmpty then none else some (e.1, filteredNext))

/-- `filterModel(pool)`: char-transition contexts are validated after
stripping `^^` occurrences; syllable-bigram contexts are validated as-is. -/
def filterModel {α : Type} (pool : String) (charT syllB : Transitions α) :
    Transitions α × Transitions α :=
  (filterTable pool (fun c => isValidFilter pool (String.mk (stripCarets c.data))) charT,
   filterTable pool (isValidFilter pool) syllB)

theorem alGet_filter_key {α : Type} (p : String → Bool) :
    ∀ (l : List (String × α)) (k : String),
      alGet (l.filter (fun q => p q.1)) k = if p k = true then alGet l k else none := by
  intro l
  induction l with
  | nil =>
    intro k
    by_cases h : p k = true <;> simp [alGet, h]
  | cons hd tl ih =>
    intro k
    obtain ⟨k0, v⟩ := hd
    by_cases hk : k0 = k
    · subst hk
      by_cases hp : p k0 = true
      · rw [List.filter_cons_of_pos (by simpa using hp)]
        simp [alGet, hp]
      · rw [List.filter_cons_of_neg (by simpa using hp)]
        rw [ih]
        simp [hp]
    · by_cases hp : p k0 = true
      · rw [List.filter_cons_of_pos (by simpa using hp)]
        simp only [alGet, if_neg hk]
        exact ih k
      · rw [List.filter_cons_of_neg (by simpa using hp)]
        rw [ih]
        simp only [alGet, if_neg hk]

theorem filterTable_keys_sub {α : Type} (pool : String) (keyOk : String → Bool)
    (tbl : Transitions α) :
    ∀ k, k ∈ (filterTable pool keyOk tbl).map Prod.fst → k ∈ tbl.map Prod.fst := by
  intro k hk
  rw [List.mem_map] at hk
  obtain ⟨e, he, rfl⟩ := hk
  unfold filterTable at he
  rw [List.mem_filterMap] at he
  obtain ⟨e0, he0, hfe⟩ := he
  have hkey : e.1 = e0.1 := by
    by_cases hc1 : (!(keyOk e0.1)) = true
    · rw [if_pos hc1] at hfe
      exact absurd hfe (by simp)
    · rw [if_neg hc1] at hfe
      by_cases hc2 : ((e0.2.filter (fun q => isValidFilter pool q.1)).isEmpty) = true
      · rw [if_pos hc2] at hfe
        exact absurd hfe (by simp)
      · rw [if_neg hc2] at hfe
        injection hfe with hfe
        rw [← hfe]

  rw [hkey]
  exact List.mem_map_of_mem _ he0

theorem alGet_cons_self {κ α : Type} [DecidableEq κ] (k : κ) (v : α) (tl : List (κ × α)) :
    alGet ((k, v) :: tl) k = some v := by
  unfold alGet
  rw [if_pos rfl]

theorem alGet_cons_ne {κ α : Type} [DecidableEq κ] {k key : κ} (h : k ≠ key) (v : α)
    (tl : List (κ × α)) : alGet ((k, v) :: tl) key = alGet tl key := by
  simp only [alGet]
  rw [if_neg h]

theorem alGet2_cons_self {α : Type} (k : String) (inner : List (String × α))
    (tl : Transitions α) (sym : String) :
    alGet2 ((k, inner) :: tl) k sym = alGet inner sym := by
  unfold alGet2
  rw [alGet_cons_self]

theorem alGet2_cons_ne {α : Type} {k ctx : String} (h : ctx ≠ k)
    (inner : List (String × α)) (tl : Transitions α) (sym : String) :
    alGet2 ((k, inner) :: tl) ctx sym = alGet2 tl ctx sym := by
  unfold alGet2
  rw [alGet_cons_ne (fun he => h he.symm)]

theorem alGet2_filterTable {α : Type} (pool : String) (keyOk : String → Bool) :
    ∀ (tbl : Transitions α), (tbl.map Prod.fst).Nodup → ∀ (ctx sym : String) (v : α),
      (alGet2 (filterTable pool keyOk tbl) ctx sym = some v ↔
        (alGet2 tbl ctx sym = some v ∧ keyOk ctx = true ∧
          isValidFilter pool sym = true)) := by
  intro tbl
  induction tbl with
  | nil =>
    intro _ ctx sym v
    simp [filterTable, alGet2, alGet]
  | cons e tl ih =>
    intro hnd ctx sym v
    obtain ⟨k, inner⟩ := e
    simp only [List.map_cons, List.nodup_cons] at hnd
    have hnone : alGet2 (filterTable pool keyOk tl) k sym = some v → False := by
      intro h
      unfold alGet2 at h
      rw [alGet_eq_none_of_not_mem_keys _ _
        (fun hmem => hnd.1 (filterTable_keys_sub pool keyOk tl k hmem))] at h
      exact absurd h (by simp)
    by_cases hc1 : (!(keyOk k)) = true
    · have hstep : filterTable pool keyOk ((k, inner) :: tl) = filterTable pool keyOk tl := by
        unfold filterTable
        rw [List.filterMap_cons, if_pos hc1]
      rw [hstep]
      by_cases hctx : ctx = k
      · subst hctx
        constructor
        · intro h
          exact absurd h (fun h2 => hnone h2)
        · rintro ⟨_, hko, _⟩
          rw [hko] at hc1
          exact absurd hc1 (by decide)
      · rw [alGet2_cons_ne hctx]
        exact ih hnd.2 ctx sym v
    · by_cases hc2 : ((inner.filter (fun q => isValidFilter pool q.1)).isEmpty) = true
      · have hstep : filterTable pool keyOk ((k, inner) :: tl) = filterTable pool keyOk tl := by
          unfold filterTable
          rw [List.filterMap_cons, if_neg hc1, if_pos hc2]
        rw [hstep]
        by_cases hctx : ctx = k
        · subst hctx
          constructor
          · intro h
            exact absurd h (fun h2 => hnone h2)
          · rintro ⟨hget, _, hsym⟩
            exfalso
            rw [alGet2_cons_self] at hget
            have hmem : (sym, v) ∈ inner := alGet_mem hget
            have hmem2 : (sym, v) ∈ inner.filter (fun q => isValidFilter pool q.1) :=
              List.mem_filter.mpr ⟨hmem, by simpa using hsym⟩
            rw [List.isEmpty_iff] at hc2
            rw [hc2] at hmem2
            simp at hmem2
        · rw [alGet2_cons_ne hctx]
          exact ih hnd.2 ctx sym v
      · have hstep : filterTable pool keyOk ((k, inner) :: tl) =
            (k, inner.filter (fun q => isValidFilter pool q.1)) :: filterTable pool keyOk tl := by
          unfold filterTable
          rw [List.filterMap_cons, if_neg hc1, if_neg hc2]
        rw [hstep]
        have hko : keyOk k = true := by
          cases hb : keyOk k with
          | false => exact absurd (by simp [hb]) hc1
          | true => rfl
        by_cases hctx : ctx = k
        · subst hctx
          rw [alGet2_cons_self, alGet2_cons_self]
          rw [alGet_filter_key (isValidFilter pool)]
          constructor
          · intro h
            by_cases hsym : isValidFilter pool sym = true
            · rw [if_pos hsym] at h
              exact ⟨h, hko, hsym⟩
            · rw [if_neg hsym] at h
              exact absurd h (by simp)
          · rintro ⟨hget, _, hsym⟩
            rw [if_pos hsym]
            exact hget
        · rw [alGet2_cons_ne hctx, alGet2_cons_ne hctx]
          exact ih hnd.2 ctx sym v

/-- Modelled from the claim's wording: an entry key's non-marker characters
(those other than the boundary characters `^` and `$`) all lie in the pool. -/
def specC5NonMarkerInPool (pool : String) (s : String) : Bool :=
  (s.data.filter (fun c => !(c == '^') && !(c == '$'))).all (fun c => c ∈ pool.data)

/-- C5 (counterexample): the char-transition context `"^a"` (produced by
training for every syllable starting with `a`) has all its non-marker
characters in the pool `"ab"`, and so does the next symbol `"b"`, yet
`filterModel` removes the entry: the lone `^` is not the full `^^` marker, so
the context fails `isValid` after marker stripping. -/
theorem filterModel_drops_half_marker_context :
    specC5NonMarkerInPool "ab" "^a" = true ∧
    specC5NonMarkerInPool "ab" "b" = true ∧
    alGet2 [("^a", [("b", (1 : Nat))])] "^a" "b" = some 1 ∧
    alGet2 (filterModel "ab" [("^a", [("b", (1 : Nat))])] ([] : Transitions Nat)).1
      "^a" "b" = none := by
  refine ⟨by decide, by decide, by decide, by decide⟩

/-- C5 (amended): `filterModel` keeps exactly the entries whose context and
next symbol pass `isValid` against the pool — where a charTransitions
context is tested after removing `^^` marker occurrences (so a context with
a lone boundary character, e.g. `"^a"` or `"a$"`, is removed even when its
letters are in the pool), full boundary markers always pass, and each kept
entry retains its original log-probability. -/
theorem filterModel_spec {α : Type} (pool : String) (charT syllB : Transitions α)
    (hchar : (charT.map Prod.fst).Nodup) (hsyll : (syllB.map Prod.fst).Nodup)
    (ctx sym : String) (v : α) :
    (alGet2 (filterModel pool charT syllB).1 ctx sym = some v ↔
      (alGet2 charT ctx sym = some v ∧
        isValidFilter pool (String.mk (stripCarets ctx.data)) = true ∧
        isValidFilter pool sym = true)) ∧
    (alGet2 (filterModel pool charT syllB).2 ctx sym = some v ↔
      (alGet2 syllB ctx sym = some v ∧ isValidFilter pool ctx = true ∧
        isValidFilter pool sym = true)) :=
  ⟨alGet2_filterTable pool (fun c => isValidFilter pool (String.mk (stripCarets c.data)))
      charT hchar ctx sym v,
   alGet2_filterTable pool (isValidFilter pool) syllB hsyll ctx sym v⟩

theorem filterModel_spec_witness :
    (alGet2 (filterModel "ab" [("ab", [("a", (3 : Nat)), ("c", 4)])]
      [("$$", [("ab", (5 : Nat))])]).2 "$$" "ab" = some 5) ∧
    (alGet2 (filterModel "ab" [("ab", [("a", (3 : Nat)), ("c", 4)])]
      [("$$", [("ab", (5 : Nat))])]).1 "ab" "a" = some 3) := by
  have h1 := (filterModel_spec "ab" [("ab", [("a", (3 : Nat)), ("c", 4)])]
    [("$$", [("ab", (5 : Nat))])] (by decide) (by decide) "$$" "ab" 5).2.mpr
    ⟨by decide, by decide, by decide⟩
  have h2 := (filterModel_spec "ab" [("ab", [("a", (3 : Nat)), ("c", 4)])]
    [("$$", [("ab", (5 : Nat))])] (by decide) (by decide) "ab" "a" 3).1.mpr
    ⟨by decide, by decide, by decide⟩
  exact ⟨h1, h2⟩

/-! ### getRandomViableWord (C4) -/

/-- `isValidSyllable` inside `getRandomViableWord`: both boundary markers
pass, otherwise every character must be in the pool set (pool plus center). -/
def isValidSyllableRand (pool : String) (center : Char) (s : String) : Bool :=
  s == "$$" || s == "^^" || s.data.all (poolHas pool center)

/-- `if (!m.has(k)) m.set(k, []); m.get(k).push(v)`. -/
def alPush (l : List (String × List String)) (k : String) (v : String) :
    List (String × List String) :=
  alSet l k ((alGet l k).getD [] ++ [v])

/-- The forward/backward transition maps and the anchor-syllable list built
by step 1 of `getRandomViableWord` (the `validSyllables` set is write-only in
the source and is omitted). -/
structure RandMaps : Type where
  fwd : List (String × List String)
  rev : List (String × List String)
  anchors : List String

/-- Processing one `[current, nextMap]` entry of the bigram table. -/
def buildMapsEntry (pool : String) (center : Char) (m : RandMaps)
    (current : String) (nextKeys : List String) : RandMaps :=
  if !(isValidSyllableRand pool center current) then m
  else
    let m1 : RandMaps :=
      if current != "^^" && current != "$$" && current.data.contains center then
        { m with anchors := m.anchors ++ [current] }
      else m
    nextKeys.foldl (fun acc next =>
      if !(isValidSyllableRand pool center next) then acc
      else { acc with fwd := alPush acc.fwd current next,
                      rev := alPush acc.rev next current }) m1

def buildMaps {α : Type} (bigrams : Transitions α) (pool : String) (center : Char) :
    RandMaps :=
  bigrams.foldl (fun m e => buildMapsEntry pool center m e.1 (e.2.map Prod.fst)) ⟨[], [], []⟩

/-- The backward random walk toward `^^` (step 3).  `fuel` is the remaining
step budget (10 in the source: the safety break fires once `backSteps`
exceeds 10, so the walk succeeds only within 10 steps).  Each random pick
consumes one value of the stream `rand`, used modulo the candidate count;
the pair returned carries the next stream index. -/
def walkBack (rev : List (String × List String)) (rand : Nat → Nat) :
    Nat → Nat → String → List String → Option (List String) × Nat
  | fuel, k, cur, acc =>
    if cur = "^^" then (some acc, k)
    else
      match fuel with
      | 0 => (none, k)
      | fuel + 1 =>
        match alGet rev cur with
        | none => (none, k)
        | some cands =>
          if cands.length = 0 then (none, k)
          else
            match cands.get? (rand k % cands.length) with
            | none => (none, k + 1)
            | some prev =>
              walkBack rev rand fuel (k + 1) prev
                (if prev = "^^" then acc else prev :: acc)

/-- The forward random walk toward `$$` (step 4). -/
def walkFwd (fwd : List (String × List String)) (rand : Nat → Nat) :
    Nat → Nat → String → List String → Option (List String) × Nat
  | fuel, k, cur, acc =>
    if cur = "$$" then (some acc, k)
    else
      match fuel with
      | 0 => (none, k)
      | fuel + 1 =>
        match alGet fwd cur with
        | none => (none, k)
        | some cands =>
          if cands.length = 0 then (none, k)
          else
            match cands.get? (rand k % cands.length) with
            | none => (none, k + 1)
            | some next =>
              walkFwd fwd rand fuel (k + 1) next
                (if next = "$$" then acc else acc ++ [next])

/-- Step 6's adjacent-identical check: some `i` with
`sylls[i] = sylls[i+1]`, `i+2 < length` and `sylls[i+2] = sylls[i]`. -/
def hasTooManyRepeats (sylls : List String) : Bool :=
  (List.range (sylls.length - 1)).any (fun i =>
    (sylls.get? i == sylls.get? (i + 1)) &&
    decide (i + 2 < sylls.length) &&
    (sylls.get? (i + 2) == sylls.get? i))

/-- One attempt of the retry loop: pick a random anchor seed, walk backward
and forward, assemble the word, and validate the length and repeat
constraints. -/
def randAttempt (fwd rev : List (String × List String)) (anchors : List String)
    (rand : Nat → Nat) (minLen maxLen : Nat) (k : Nat) : Option String × Nat :=
  match anchors.get? (rand k % anchors.length) with
  | none => (none, k + 1)
  | some seed =>
    match walkBack rev rand 10 (k + 1) seed [] with
    | (none, kb) => (none, kb)
    | (some prefixParts, kb) =>
      match walkFwd fwd rand 10 kb seed [] with
      | (none, kf) => (none, kf)
      | (some suffixParts, kf) =>
        if (String.join (prefixParts ++ [seed] ++ suffixParts)).length < minLen ||
            maxLen < (String.join (prefixParts ++ [seed] ++ suffixParts)).length then
          (none, kf)
        else if hasTooManyRepeats (prefixParts ++ [seed] ++ suffixParts) then (none, kf)
        else (some (String.join (prefixParts ++ [seed] ++ suffixParts)), kf)

def randLoop (fwd rev : List (String × List String)) (anchors : List String)
    (rand : Nat → Nat) (minLen maxLen : Nat) : Nat → Nat → Option String
  | 0, _ => none
  | n + 1, k =>
    match randAttempt fwd rev anchors rand minLen maxLen k with
    | (some w, _) => some w
    | (none, k2) => randLoop fwd rev anchors rand minLen maxLen n k2

/-- `getRandomViableWord(options)` with the randomness source modelled as a
stream of naturals (each `Math.random()` pick is the next stream value taken
modulo the candidate count). -/
def getRandomViableWord {α : Type} (bigrams : Transitions α) (pool : String) (center : Char)
    (minLen maxLen maxRetries : Nat) (rand : Nat → Nat) : Option String :=
  let maps := buildMaps bigrams pool center
  if maps.anchors.length = 0 then none
  else randLoop maps.fwd maps.rev maps.anchors rand minLen maxLen maxRetries 0

theorem foldl_fwdrev_anchors (pool : String) (center : Char) (current : String) :
    ∀ (keys : List String) (m : RandMaps),
      (keys.foldl (fun acc next =>
        if !(isValidSyllableRand pool center next) then acc
        else { acc with fwd := alPush acc.fwd current next,
                        rev := alPush acc.rev next current }) m).anchors = m.anchors := by
  intro keys
  induction keys with
  | nil => intro m; rfl
  | cons hd tl ih =>
    intro m
    simp only [List.foldl_cons]
    rw [ih]
    by_cases h : (!(isValidSyllableRand pool center hd)) = true
    · rw [if_pos h]
    · rw [if_neg h]

theorem buildMapsEntry_anchors_center {pool : String} {center : Char} {m : RandMaps}
    (hm : ∀ s ∈ m.anchors, center ∈ s.data) (current : String) (nextKeys : List String) :
    ∀ s ∈ (buildMapsEntry pool center m current nextKeys).anchors, center ∈ s.data := by
  unfold buildMapsEntry
  by_cases h1 : (!(isValidSyllableRand pool center current)) = true
  · rw [if_pos h1]
    exact hm
  · rw [if_neg h1]
    rw [foldl_fwdrev_anchors]
    by_cases h2 : (current != "^^" && current != "$$" && current.data.contains center) = true
    · rw [if_pos h2]
      intro s hs
      rcases List.mem_append.mp hs with hs | hs
      · exact hm s hs
      · rw [List.mem_singleton.mp hs]
        simp only [Bool.and_eq_true] at h2
        obtain ⟨b, hbm, hbeq⟩ := List.contains_iff_exists_mem_beq.mp h2.2
        rw [eq_of_beq hbeq]
        exact hbm
    · rw [if_neg h2]
      exact hm

theorem buildMaps_anchors_center {α : Type} (bigrams : Transitions α) (pool : String)
    (center : Char) : ∀ s ∈ (buildMaps bigrams pool center).anchors, center ∈ s.data := by
  unfold buildMaps
  have hgen : ∀ (l : Transitions α) (m : RandMaps), (∀ s ∈ m.anchors, center ∈ s.data) →
      ∀ s ∈ (l.foldl (fun m e => buildMapsEntry pool center m e.1 (e.2.map Prod.fst))
        m).anchors, center ∈ s.data := by
    intro l
    induction l with
    | nil => intro m hm; exact hm
    | cons e tl ih =>
      intro m hm
      simp only [List.foldl_cons]
      exact ih _ (buildMapsEntry_anchors_center hm e.1 (e.2.map Prod.fst))
  exact hgen bigrams ⟨[], [], []⟩ (by intro s hs; simp at hs)

theorem randAttempt_some {center : Char} {fwd rev : List (String × List String)}
    {anchors : List String} {rand : Nat → Nat} {minLen maxLen k : Nat} {w : String}
    {k2 : Nat} (hanch : ∀ s ∈ anchors, center ∈ s.data)
    (h : randAttempt fwd rev anchors rand minLen maxLen k = (some w, k2)) :
    minLen ≤ w.length ∧ w.length ≤ maxLen ∧ center ∈ w.data := by
  unfold randAttempt at h
  split at h
  · exact absurd (congrArg Prod.fst h) (by simp)
  · rename_i seed hseed
    split at h
    · exact absurd (congrArg Prod.fst h) (by simp)
    · rename_i prefixParts kb hback
      split at h
      · exact absurd (congrArg Prod.fst h) (by simp)
      · rename_i suffixParts kf hfwd
        split at h
        · exact absurd (congrArg Prod.fst h) (by simp)
        · rename_i hlen
          split at h
          · exact absurd (congrArg Prod.fst h) (by simp)
          · have hw : String.join (prefixParts ++ [seed] ++ suffixParts) = w := by
              have h2 := congrArg Prod.fst h
              simpa using h2
            have hseedmem : seed ∈ anchors := List.get?_mem hseed
            simp only [Bool.or_eq_true, not_or, decide_eq_true_eq, Nat.not_lt] at hlen
            refine ⟨?_, ?_, ?_⟩
            · rw [← hw]
              exact hlen.1
            · rw [← hw]
              exact hlen.2
            · rw [← hw]
              exact mem_data_join
                (List.mem_append_left _ (List.mem_append_right _ (List.mem_singleton.mpr rfl)))
                (hanch seed hseedmem)

theorem randLoop_some {center : Char} {fwd rev : List (String × List String)}
    {anchors : List String} {rand : Nat → Nat} {minLen maxLen : Nat}
    (hanch : ∀ s ∈ anchors, center ∈ s.data) :
    ∀ (n k : Nat) (w : String), randLoop fwd rev anchors rand minLen maxLen n k = some w →
      minLen ≤ w.length ∧ w.length ≤ maxLen ∧ center ∈ w.data := by
  intro n
  induction n with
  | zero =>
    intro k w h
    exact absurd h (by simp [randLoop])
  | succ n ih =>
    intro k w h
    unfold randLoop at h
    rcases hatt : randAttempt fwd rev anchors rand minLen maxLen k with ⟨res, knext⟩
    rw [hatt] at h
    cases res with
    | some w2 =>
      have hw2 : w2 = w := by
        injection h
      rw [← hw2]
      exact randAttempt_some hanch hatt
    | none => exact ih knext w h

/-- C4 (amended): `getRandomViableWord` returns `null` whenever no anchor
syllable exists, and otherwise returns either `null` or a word of length in
`[minLen, maxLen]` containing the center letter.  (The source never
re-checks `isViable` on the assembled word; see the counterexample.) -/
theorem getRandomViableWord_spec {α : Type} (bigrams : Transitions α) (pool : String)
    (center : Char) (minLen maxLen maxRetries : Nat) (rand : Nat → Nat) :
    ((buildMaps bigrams pool center).anchors = [] →
      getRandomViableWord bigrams pool center minLen maxLen maxRetries rand = none) ∧
    (∀ w, getRandomViableWord bigrams pool center minLen maxLen maxRetries rand = some w →
      minLen ≤ w.length ∧ w.length ≤ maxLen ∧ center ∈ w.data) := by
  constructor
  · intro hempty
    unfold getRandomViableWord
    rw [if_pos (by rw [hempty]; rfl)]
  · intro w h
    unfold getRandomViableWord at h
    by_cases hlen : (buildMaps bigrams pool center).anchors.length = 0
    · rw [if_pos hlen] at h
      exact absurd h (by simp)
    · rw [if_neg hlen] at h
      exact randLoop_some (buildMaps_anchors_center bigrams pool center) maxRetries 0 w h

theorem getRandomViableWord_spec_witness :
    (2 ≤ "ta".length ∧ "ta".length ≤ 8 ∧ 't' ∈ "ta".data) ∧
    getRandomViableWord [("^^", [("bb", (0 : Nat))])] "b" 't' 2 8 50 (fun _ => 0) = none := by
  refine ⟨(getRandomViableWord_spec [("^^", [("ta", (0 : Nat))]), ("ta", [("$$", 0)])]
    "a" 't' 2 8 50 (fun _ => 0)).2 "ta" (by decide), ?_⟩
  exact (getRandomViableWord_spec [("^^", [("bb", (0 : Nat))])] "b" 't' 2 8 50
    (fun _ => 0)).1 (by decide)

/-! ### score / isViable (§4.4), needed to state the original C4 claim -/

/-- The per-window walk of `scoreSyllable`: an unseen context, or one whose
value is below the hard minimum transition threshold `-6.0`, fails the whole
syllable with `-10.0`; otherwise the mean of the learned log-probabilities
is returned. -/
noncomputable def scoreWindows (charT : Transitions ℝ) :
    List (String × String) → ℝ → Nat → ℝ
  | [], total, count => total / count
  | cw :: rest, total, count =>
    match alGet2 charT cw.1 cw.2 with
    | none => -10
    | some prob =>
      if prob < -6 then -10
      else scoreWindows charT rest (total + prob) (count + 1)

/-- `scoreSyllable`: score the windows of `` `^^${syllable.toLowerCase()}$$` ``. -/
noncomputable def scoreSyllable (charT : Transitions ℝ) (syl : String) : ℝ :=
  scoreWindows charT (windows3 (tokenizeSyl syl.toLower)) 0 0

/-- `isViable(word)`: syllabify (external collaborator), false on zero
syllables, otherwise every syllable's score must exceed the viability
threshold `-4.0`. -/
def isViable (syllabify : String → List String) (charT : Transitions ℝ)
    (word : String) : Prop :=
  syllabify word ≠ [] ∧ ∀ syl ∈ syllabify word, scoreSyllable charT syl > -4

/-- C4 (counterexample): with an imported model whose syllable bigrams admit
the walk `^^ → ta → $$` but whose character-transition table is empty,
`getRandomViableWord` returns "ta", yet `isViable "ta"` is false (every
character window is unseen, so the syllable scores -10 ≤ -4).  The claim's
`isViable(w) == true` conjunct therefore fails on the code, which never
re-checks viability of the assembled word. -/
theorem getRandomViableWord_not_viable :
    getRandomViableWord [("^^", [("ta", (0 : Nat))]), ("ta", [("$$", 0)])] "a" 't' 2 8 50
      (fun _ => 0) = some "ta" ∧
    ¬ isViable syllOne ([] : Transitions ℝ) "ta" := by
  constructor
  · decide
  · intro h
    obtain ⟨_, hall⟩ := h
    have h2 := hall "ta" (by simp [syllOne])
    have htl : "ta".toLower = "ta" := by
      rw [show "ta".toLower = String.map Char.toLower "ta" from rfl, String.map_eq]
      decide
    have hs : scoreSyllable ([] : Transitions ℝ) "ta" = -10 := by
      unfold scoreSyllable
      rw [htl]
      rw [show windows3 (tokenizeSyl "ta") =
        [("^^", "t"), ("^t", "a"), ("ta", "$"), ("a$", "$")] from rfl]
      unfold scoreWindows
      rfl
    rw [hs] at h2
    norm_num at h2

end BeeBestie
